import Mathlib

/-!
# Verification of the Zcash transaction codec (`lib/zcash/transaction.py`)

Shallow embedding of the Zcash transaction (de)serializer.  The Python
source works over hex strings; we embed it at the byte level (a byte is
`Fin 256`), which is the level at which the specification speaks
("byte-for-byte").  The byte-stream reader (`BCDataStream`), the
variable-length count codec (`read_compact_size` / `var_int`), the
little-endian integer codec (`int_to_hex`, `read_int32`, `read_uint32`,
`read_int64`) and the base-layer input/output parsers come from the
external `electrum` library (not part of the packaged sources); they are
modelled from the spec's reader contract, with the base-layer input and
output codec kept fully abstract (a `BaseCodec` parameter).
-/

/-- A byte. -/
abbrev Byte := Fin 256

/-- A byte string. -/
abbrev Bytes := List Byte

/-- Little-endian value of a byte string (first byte least significant). -/
def leToNat (bs : Bytes) : Nat :=
  bs.foldr (fun b acc => b.val + 256 * acc) 0

/-- Modelled from the spec: little-endian encoding of a natural number on
`k` bytes (the byte-level counterpart of `int_to_hex` for non-negative
values). -/
def natToLE : Nat → Nat → Bytes
  | 0, _ => []
  | k + 1, n => ⟨n % 256, by omega⟩ :: natToLE k (n / 256)

/-- Two's-complement reinterpretation of a `k`-byte little-endian value,
as performed by the signed readers `read_int32` / `read_int64`. -/
def toSigned (k n : Nat) : Int :=
  if 2 * n < 256 ^ k then (n : Int) else (n : Int) - (256 ^ k : Nat)

/-- Modelled from the spec: little-endian encoding of a (possibly
negative) integer on `k` bytes, two's complement (`int_to_hex`). -/
def intToLE (k : Nat) (i : Int) : Bytes :=
  natToLE k (i % ((256 : Int) ^ k)).toNat

theorem natToLE_length (k n : Nat) : (natToLE k n).length = k := by
  induction k generalizing n with
  | zero => rfl
  | succ k ih => simp [natToLE, ih]

theorem leToNat_nil : leToNat [] = 0 := rfl

theorem leToNat_cons (b : Byte) (bs : Bytes) :
    leToNat (b :: bs) = b.val + 256 * leToNat bs := rfl

theorem leToNat_lt (bs : Bytes) : leToNat bs < 256 ^ bs.length := by
  induction bs with
  | nil => simp [leToNat]
  | cons b bs ih =>
    have hb := b.isLt
    simp only [leToNat_cons, List.length_cons, pow_succ]
    omega

theorem leToNat_natToLE (k n : Nat) : leToNat (natToLE k n) = n % 256 ^ k := by
  induction k generalizing n with
  | zero => simp [natToLE, leToNat]; omega
  | succ k ih =>
    simp only [natToLE, leToNat_cons, ih]
    rw [pow_succ, mul_comm (256 ^ k) 256, Nat.mod_mul]

theorem leToNat_natToLE_of_lt {k n : Nat} (h : n < 256 ^ k) :
    leToNat (natToLE k n) = n := by
  rw [leToNat_natToLE, Nat.mod_eq_of_lt h]

theorem natToLE_leToNat (bs : Bytes) : natToLE bs.length (leToNat bs) = bs := by
  induction bs with
  | nil => rfl
  | cons b bs ih =>
    have hb := b.isLt
    simp only [List.length_cons, natToLE, leToNat_cons]
    congr 1
    · apply Fin.ext
      simp only
      omega
    · have hdiv : (b.val + 256 * leToNat bs) / 256 = leToNat bs := by omega
      rw [hdiv, ih]

theorem natToLE_leToNat_of_length {k : Nat} {bs : Bytes} (h : bs.length = k) :
    natToLE k (leToNat bs) = bs := by
  subst h; exact natToLE_leToNat bs

theorem emod_of_neg_range {x m : Int} (h1 : -m ≤ x) (h2 : x < 0) : x % m = x + m := by
  have h : (x + m * 1) % m = x % m := Int.add_mul_emod_self_left x m 1
  rw [mul_one] at h
  rw [← h]
  exact Int.emod_eq_of_lt (by omega) (by omega)

/-- Decoding `k` little-endian bytes as signed and re-encoding them
two's-complement gives back the bytes. -/
theorem intToLE_toSigned {k : Nat} {bs : Bytes} (h : bs.length = k) :
    intToLE k (toSigned k (leToNat bs)) = bs := by
  have hlt : leToNat bs < 256 ^ k := h ▸ leToNat_lt bs
  have hcast : ((256 ^ k : Nat) : Int) = (256 : Int) ^ k := by push_cast; ring
  unfold intToLE toSigned
  by_cases hc : 2 * leToNat bs < 256 ^ k
  · rw [if_pos hc, Int.emod_eq_of_lt (by positivity) (by rw [← hcast]; exact_mod_cast hlt)]
    simpa using natToLE_leToNat_of_length h
  · rw [if_neg hc, hcast.symm]
    rcases Nat.eq_zero_or_pos (leToNat bs) with hz | hpos
    · exfalso; have : 0 < 256 ^ k := Nat.pos_pow_of_pos k (by norm_num); omega
    · have hmod : ((leToNat bs : Int) - ((256 ^ k : Nat) : Int)) % ((256 ^ k : Nat) : Int)
          = (leToNat bs : Int) - ((256 ^ k : Nat) : Int) + ((256 ^ k : Nat) : Int) := by
        apply emod_of_neg_range <;> omega
      rw [hmod]
      have : (leToNat bs : Int) - ((256 ^ k : Nat) : Int) + ((256 ^ k : Nat) : Int)
          = (leToNat bs : Int) := by ring
      rw [this]
      simpa using natToLE_leToNat_of_length h

/-- Re-reading a two's-complement encoding of an in-range integer gives
the integer back (`H` is half the modulus: `2 * H = 256 ^ k`). -/
theorem toSigned_intToLE {k H : Nat} {i : Int} (h2 : 2 * H = 256 ^ k)
    (hlo : -(H : Int) ≤ i) (hhi : i < (H : Int)) :
    toSigned k (leToNat (intToLE k i)) = i := by
  have hcast : ((256 ^ k : Nat) : Int) = (256 : Int) ^ k := by push_cast; ring
  have hmodlt : i % (256 : Int) ^ k < (256 : Int) ^ k := Int.emod_lt_of_pos i (by positivity)
  have hmodnn : 0 ≤ i % (256 : Int) ^ k := Int.emod_nonneg i (by positivity)
  have hnat : (((i % (256 : Int) ^ k).toNat : Int)) = i % (256 : Int) ^ k :=
    Int.toNat_of_nonneg hmodnn
  have hltn : (i % (256 : Int) ^ k).toNat < 256 ^ k := by omega
  unfold intToLE
  rw [leToNat_natToLE_of_lt hltn]
  rcases le_or_lt 0 i with hi | hi
  · have hval : i % (256 : Int) ^ k = i := Int.emod_eq_of_lt hi (by omega)
    unfold toSigned
    split <;> omega
  · have hval : i % (256 : Int) ^ k = i + (256 : Int) ^ k := emod_of_neg_range (by omega) hi
    unfold toSigned
    split <;> omega

/-- Error kinds surfaced by the codec (the Python source raises
`SerializationError` for a short read and `ValueError` for a bad point
marker or a witness-serialization request; the spec names them
`TruncatedInput`, `MalformedPoint` and `UnsupportedFeature`).
`nonCanonicalSize` is never produced by the modelled source decoder; it
is raised only by the strict well-formedness decoder used to express
"byte sequence of this format" (canonical compact sizes). -/
inductive Err where
  | truncatedInput
  | malformedPoint
  | unsupportedFeature
  | nonCanonicalSize
deriving DecidableEq, Repr

/-- Modelled from the spec: `BCDataStream.read_bytes(n)` — exactly `n`
bytes or `TruncatedInput`.  The stream cursor is modelled by returning
the unread remainder of the buffer. -/
def readBytes (n : Nat) (s : Bytes) : Except Err (Bytes × Bytes) :=
  if n ≤ s.length then .ok (s.take n, s.drop n) else .error .truncatedInput

/-- Sequencing of a parse step: pass the parsed value and the unread
remainder on, propagating any error unchanged (the Python reader raises,
so an error aborts the enclosing decode as-is). -/
def pbind {α β : Type _} (x : Except Err (α × Bytes))
    (f : α → Bytes → Except Err (β × Bytes)) : Except Err (β × Bytes) :=
  match x with
  | .error e => .error e
  | .ok (a, s) => f a s

@[simp] theorem pbind_ok {α β : Type _} (a : α) (s : Bytes)
    (f : α → Bytes → Except Err (β × Bytes)) : pbind (.ok (a, s)) f = f a s := rfl

@[simp] theorem pbind_error {α β : Type _} (e : Err)
    (f : α → Bytes → Except Err (β × Bytes)) :
    pbind (.error e : Except Err (α × Bytes)) f = .error e := rfl

theorem pbind_ok_elim {α β : Type _} {x : Except Err (α × Bytes)}
    {f : α → Bytes → Except Err (β × Bytes)} {b : β} {rest : Bytes}
    (h : pbind x f = .ok (b, rest)) :
    ∃ a s, x = .ok (a, s) ∧ f a s = .ok (b, rest) := by
  cases x with
  | error e => cases h
  | ok p => obtain ⟨a, s⟩ := p; exact ⟨a, s, rfl, h⟩

theorem pbind_error_elim {α β : Type _} {x : Except Err (α × Bytes)}
    {f : α → Bytes → Except Err (β × Bytes)} {e : Err}
    (h : pbind x f = .error e) :
    x = .error e ∨ ∃ a s, x = .ok (a, s) ∧ f a s = .error e := by
  cases x with
  | error e' =>
    left
    rw [pbind_error] at h
    injection h with he
    rw [he]
  | ok p => obtain ⟨a, s⟩ := p; right; exact ⟨a, s, rfl, h⟩

/-- Modelled from the spec: `read_uint32`-style fixed-width unsigned
little-endian read. -/
def readUnsignedLE (k : Nat) (s : Bytes) : Except Err (Nat × Bytes) :=
  pbind (readBytes k s) fun bs rest => .ok (leToNat bs, rest)

/-- Modelled from the spec: `read_int32` / `read_int64`-style fixed-width
signed little-endian read (two's complement). -/
def readSignedLE (k : Nat) (s : Bytes) : Except Err (Int × Bytes) :=
  pbind (readBytes k s) fun bs rest => .ok (toSigned k (leToNat bs), rest)

/-- Modelled from the spec: `BCDataStream.read_compact_size` — the
standard variable-length unsigned count encoding (1 byte below `0xfd`,
otherwise a marker byte followed by a 2-, 4- or 8-byte little-endian
value). -/
def readCompactSize : Bytes → Except Err (Nat × Bytes)
  | [] => .error .truncatedInput
  | b :: rest =>
    if b.val < 253 then .ok (b.val, rest)
    else if b.val = 253 then readUnsignedLE 2 rest
    else if b.val = 254 then readUnsignedLE 4 rest
    else readUnsignedLE 8 rest

/-- Strict variant of `readCompactSize` that additionally rejects
non-canonical encodings (a wide encoding of a value that fits a narrower
one).  This is a well-formedness device, not source code: the canonical
encoding is what the serializer `var_int` emits, so "a byte sequence of
this format" uses it. -/
def readCompactSizeStrict : Bytes → Except Err (Nat × Bytes)
  | [] => .error .truncatedInput
  | b :: rest =>
    if b.val < 253 then .ok (b.val, rest)
    else if b.val = 253 then
      pbind (readUnsignedLE 2 rest) fun n rest' =>
        if 253 ≤ n then .ok (n, rest') else .error .nonCanonicalSize
    else if b.val = 254 then
      pbind (readUnsignedLE 4 rest) fun n rest' =>
        if 2 ^ 16 ≤ n then .ok (n, rest') else .error .nonCanonicalSize
    else
      pbind (readUnsignedLE 8 rest) fun n rest' =>
        if 2 ^ 32 ≤ n then .ok (n, rest') else .error .nonCanonicalSize

/-- Modelled from the spec: `var_int` — the canonical serializer of the
variable-length count encoding. -/
def varInt (n : Nat) : Bytes :=
  if n < 253 then natToLE 1 n
  else if n ≤ 0xffff then ⟨253, by omega⟩ :: natToLE 2 n
  else if n ≤ 0xffffffff then ⟨254, by omega⟩ :: natToLE 4 n
  else ⟨255, by omega⟩ :: natToLE 8 n

theorem readBytes_exact {n : Nat} {bs : Bytes} (h : bs.length = n) (rest : Bytes) :
    readBytes n (bs ++ rest) = .ok (bs, rest) := by
  unfold readBytes
  rw [if_pos (by simp [h])]
  rw [List.take_append_of_le_length (by omega), List.drop_append_of_le_length (by omega)]
  simp [h]

theorem readBytes_ok {n : Nat} {s bs rest : Bytes}
    (h : readBytes n s = .ok (bs, rest)) : s = bs ++ rest ∧ bs.length = n := by
  unfold readBytes at h
  split at h
  · rename_i hle
    have h1 : s.take n = bs := by injection h with h'; exact (Prod.mk.injEq .. ▸ h').1
    have h2 : s.drop n = rest := by injection h with h'; exact (Prod.mk.injEq .. ▸ h').2
    constructor
    · rw [← h1, ← h2]; exact (List.take_append_drop n s).symm
    · rw [← h1]; simp; omega
  · exact absurd h (by simp)

theorem readBytes_mono {n : Nat} {s bs rest : Bytes} (extra : Bytes)
    (h : readBytes n s = .ok (bs, rest)) :
    readBytes n (s ++ extra) = .ok (bs, rest ++ extra) := by
  obtain ⟨hs, hlen⟩ := readBytes_ok h
  rw [hs, List.append_assoc]
  exact readBytes_exact hlen _

theorem readUnsignedLE_exact {k n : Nat} (h : n < 256 ^ k) (rest : Bytes) :
    readUnsignedLE k (natToLE k n ++ rest) = .ok (n, rest) := by
  unfold readUnsignedLE
  rw [readBytes_exact (natToLE_length k n) rest]
  simp only [pbind_ok]
  rw [leToNat_natToLE_of_lt h]

theorem readUnsignedLE_ok {k n : Nat} {s rest : Bytes}
    (h : readUnsignedLE k s = .ok (n, rest)) :
    s = natToLE k n ++ rest ∧ n < 256 ^ k := by
  unfold readUnsignedLE at h
  obtain ⟨bs, rest', hrb, hf⟩ := pbind_ok_elim h
  simp only [Except.ok.injEq, Prod.mk.injEq] at hf
  obtain ⟨hn, hr⟩ := hf
  obtain ⟨hs, hlen⟩ := readBytes_ok hrb
  subst hr
  refine ⟨?_, ?_⟩
  · rw [hs, ← hn, natToLE_leToNat_of_length hlen]
  · rw [← hn]; exact hlen ▸ leToNat_lt bs

theorem readUnsignedLE_mono {k n : Nat} {s rest : Bytes} (extra : Bytes)
    (h : readUnsignedLE k s = .ok (n, rest)) :
    readUnsignedLE k (s ++ extra) = .ok (n, rest ++ extra) := by
  obtain ⟨hs, hlt⟩ := readUnsignedLE_ok h
  rw [hs, List.append_assoc]
  exact readUnsignedLE_exact hlt _

theorem readSignedLE_exact {k H : Nat} {i : Int} (h2 : 2 * H = 256 ^ k)
    (hlo : -(H : Int) ≤ i) (hhi : i < (H : Int)) (rest : Bytes) :
    readSignedLE k (intToLE k i ++ rest) = .ok (i, rest) := by
  unfold readSignedLE
  rw [readBytes_exact (by simp [intToLE, natToLE_length]) rest]
  simp only [pbind_ok]
  rw [toSigned_intToLE h2 hlo hhi]

theorem readSignedLE_ok {k H : Nat} {i : Int} {s rest : Bytes} (h2 : 2 * H = 256 ^ k)
    (h : readSignedLE k s = .ok (i, rest)) :
    s = intToLE k i ++ rest ∧ -(H : Int) ≤ i ∧ i < (H : Int) := by
  unfold readSignedLE at h
  obtain ⟨bs, rest', hrb, hf⟩ := pbind_ok_elim h
  simp only [Except.ok.injEq, Prod.mk.injEq] at hf
  obtain ⟨hn, hr⟩ := hf
  obtain ⟨hs, hlen⟩ := readBytes_ok hrb
  subst hr
  have hlt : leToNat bs < 256 ^ k := hlen ▸ leToNat_lt bs
  refine ⟨?_, ?_, ?_⟩
  · rw [hs, ← hn, intToLE_toSigned hlen]
  · rw [← hn]; unfold toSigned; split <;> omega
  · rw [← hn]; unfold toSigned; split <;> omega

theorem readSignedLE_mono {k H : Nat} {i : Int} {s rest : Bytes} (h2 : 2 * H = 256 ^ k)
    (extra : Bytes) (h : readSignedLE k s = .ok (i, rest)) :
    readSignedLE k (s ++ extra) = .ok (i, rest ++ extra) := by
  obtain ⟨hs, hlo, hhi⟩ := readSignedLE_ok h2 h
  rw [hs, List.append_assoc]
  exact readSignedLE_exact h2 hlo hhi _

theorem varInt_one {n : Nat} (h : n < 253) : varInt n = [⟨n, by omega⟩] := by
  unfold varInt
  rw [if_pos h]
  simp only [natToLE, List.cons.injEq]
  refine ⟨Fin.ext ?_, trivial⟩
  show n % 256 = n
  omega

theorem readCompactSizeStrict_varInt {n : Nat} (h : n < 2 ^ 64) (rest : Bytes) :
    readCompactSizeStrict (varInt n ++ rest) = .ok (n, rest) := by
  by_cases h1 : n < 253
  · rw [varInt_one h1]
    show readCompactSizeStrict ((⟨n, by omega⟩ : Byte) :: rest) = _
    simp only [readCompactSizeStrict]
    rw [if_pos (show n < 253 from h1)]
  · unfold varInt
    rw [if_neg h1]
    by_cases h2 : n ≤ 0xffff
    · rw [if_pos h2]
      show readCompactSizeStrict ((⟨253, by omega⟩ : Byte) :: (natToLE 2 n ++ rest)) = _
      simp only [readCompactSizeStrict]
      norm_num
      rw [readUnsignedLE_exact (show n < 256 ^ 2 from by omega) rest]
      simp only [pbind_ok]
      rw [if_pos (by omega)]
    · rw [if_neg h2]
      by_cases h3 : n ≤ 0xffffffff
      · rw [if_pos h3]
        show readCompactSizeStrict ((⟨254, by omega⟩ : Byte) :: (natToLE 4 n ++ rest)) = _
        simp only [readCompactSizeStrict]
        norm_num
        rw [readUnsignedLE_exact (show n < 256 ^ 4 from by omega) rest]
        simp only [pbind_ok]
        rw [if_pos (by omega)]
      · rw [if_neg h3]
        show readCompactSizeStrict ((⟨255, by omega⟩ : Byte) :: (natToLE 8 n ++ rest)) = _
        simp only [readCompactSizeStrict]
        norm_num
        rw [readUnsignedLE_exact (show n < 256 ^ 8 from by omega) rest]
        simp only [pbind_ok]
        rw [if_pos (by omega)]

theorem readCompactSizeStrict_ok {n : Nat} {s rest : Bytes}
    (h : readCompactSizeStrict s = .ok (n, rest)) :
    s = varInt n ++ rest ∧ n < 2 ^ 64 := by
  cases s with
  | nil => cases h
  | cons b r =>
    simp only [readCompactSizeStrict] at h
    by_cases h1 : b.val < 253
    · rw [if_pos h1] at h
      simp only [Except.ok.injEq, Prod.mk.injEq] at h
      obtain ⟨hn, hr⟩ := h
      subst hn; subst hr
      refine ⟨?_, by omega⟩
      rw [varInt_one h1]
      simp
    · rw [if_neg h1] at h
      by_cases h2 : b.val = 253
      · rw [if_pos h2] at h
        obtain ⟨m, r', hru, hf⟩ := pbind_ok_elim h
        split at hf
        · rename_i hcanon
          simp only [Except.ok.injEq, Prod.mk.injEq] at hf
          obtain ⟨hm, hr⟩ := hf
          subst hm; subst hr
          obtain ⟨hrs, hlt⟩ := readUnsignedLE_ok hru
          refine ⟨?_, by omega⟩
          unfold varInt
          rw [if_neg (by omega), if_pos (by omega), hrs]
          have hb : b = ⟨253, by omega⟩ := Fin.ext h2
          rw [hb]
          simp
        · cases hf
      · rw [if_neg h2] at h
        by_cases h3 : b.val = 254
        · rw [if_pos h3] at h
          obtain ⟨m, r', hru, hf⟩ := pbind_ok_elim h
          split at hf
          · rename_i hcanon
            simp only [Except.ok.injEq, Prod.mk.injEq] at hf
            obtain ⟨hm, hr⟩ := hf
            subst hm; subst hr
            obtain ⟨hrs, hlt⟩ := readUnsignedLE_ok hru
            refine ⟨?_, by omega⟩
            unfold varInt
            rw [if_neg (by omega), if_neg (by omega), if_pos (by omega), hrs]
            have hb : b = ⟨254, by omega⟩ := Fin.ext h3
            rw [hb]
            simp
          · cases hf
        · rw [if_neg h3] at h
          obtain ⟨m, r', hru, hf⟩ := pbind_ok_elim h
          split at hf
          · rename_i hcanon
            simp only [Except.ok.injEq, Prod.mk.injEq] at hf
            obtain ⟨hm, hr⟩ := hf
            subst hm; subst hr
            obtain ⟨hrs, hlt⟩ := readUnsignedLE_ok hru
            refine ⟨?_, by omega⟩
            unfold varInt
            rw [if_neg (by omega), if_neg (by omega), if_neg (by omega), hrs]
            have hb : b = ⟨255, by omega⟩ := Fin.ext (show b.val = 255 from by have := b.isLt; omega)
            rw [hb]
            simp
          · cases hf

theorem readCompactSize_of_strict {n : Nat} {s rest : Bytes}
    (h : readCompactSizeStrict s = .ok (n, rest)) :
    readCompactSize s = .ok (n, rest) := by
  cases s with
  | nil => cases h
  | cons b r =>
    simp only [readCompactSizeStrict] at h
    simp only [readCompactSize]
    by_cases h1 : b.val < 253
    · rw [if_pos h1] at h; rw [if_pos h1]; exact h
    · rw [if_neg h1] at h; rw [if_neg h1]
      by_cases h2 : b.val = 253
      · rw [if_pos h2] at h; rw [if_pos h2]
        obtain ⟨m, r', hru, hf⟩ := pbind_ok_elim h
        split at hf
        · rw [hru]; exact hf
        · cases hf
      · rw [if_neg h2] at h; rw [if_neg h2]
        by_cases h3 : b.val = 254
        · rw [if_pos h3] at h; rw [if_pos h3]
          obtain ⟨m, r', hru, hf⟩ := pbind_ok_elim h
          split at hf
          · rw [hru]; exact hf
          · cases hf
        · rw [if_neg h3] at h; rw [if_neg h3]
          obtain ⟨m, r', hru, hf⟩ := pbind_ok_elim h
          split at hf
          · rw [hru]; exact hf
          · cases hf

theorem readCompactSize_mono {n : Nat} {s rest : Bytes} (extra : Bytes)
    (h : readCompactSize s = .ok (n, rest)) :
    readCompactSize (s ++ extra) = .ok (n, rest ++ extra) := by
  cases s with
  | nil => cases h
  | cons b r =>
    simp only [readCompactSize, List.cons_append] at h ⊢
    by_cases h1 : b.val < 253
    · rw [if_pos h1] at h ⊢
      simp only [Except.ok.injEq, Prod.mk.injEq] at h ⊢
      exact ⟨h.1, by rw [← h.2]⟩
    · rw [if_neg h1] at h ⊢
      by_cases h2 : b.val = 253
      · rw [if_pos h2] at h ⊢; exact readUnsignedLE_mono extra h
      · rw [if_neg h2] at h ⊢
        by_cases h3 : b.val = 254
        · rw [if_pos h3] at h ⊢; exact readUnsignedLE_mono extra h
        · rw [if_neg h3] at h ⊢; exact readUnsignedLE_mono extra h

/-! ## Zcash constants (`lib/zcash/transaction.py`) -/

def G1_PREFIX_MASK : Nat := 0x02

def G2_PREFIX_MASK : Nat := 0x0a

def ZC_NUM_JS_INPUTS : Nat := 2

def ZC_NUM_JS_OUTPUTS : Nat := 2

def ZC_NOTEPLAINTEXT_LEADING : Nat := 1

def ZC_V_SIZE : Nat := 8

def ZC_RHO_SIZE : Nat := 32

def ZC_R_SIZE : Nat := 32

def ZC_MEMO_SIZE : Nat := 512

def ZC_NOTEPLAINTEXT_SIZE : Nat :=
  ZC_NOTEPLAINTEXT_LEADING + ZC_V_SIZE + ZC_RHO_SIZE + ZC_R_SIZE + ZC_MEMO_SIZE

def NOTEENCRYPTION_AUTH_BYTES : Nat := 16

def ZC_NOTECIPHERTEXT_SIZE : Nat := ZC_NOTEPLAINTEXT_SIZE + NOTEENCRYPTION_AUTH_BYTES

/-! ## Group-element codec -/

/-- A compressed G1 point as the source stores it: `d['y_lsb']`,
`d['x']`. -/
structure G1Point where
  y_lsb : Nat
  x : Bytes
deriving DecidableEq, Repr

/-- A compressed G2 point: `d['y_gt']`, `d['x']`. -/
structure G2Point where
  y_gt : Nat
  x : Bytes
deriving DecidableEq, Repr

/-- `parse_g1(vds)`.  Python computes `leading_byte & (~1)` and
`leading_byte & 1`; on a non-negative integer these are exactly
`v - v % 2` (bit 0 cleared) and `v % 2` (bit 0), which is how we write
them so that arithmetic automation applies. -/
def parse_g1 (vds : Bytes) : Except Err (G1Point × Bytes) :=
  pbind (readBytes 1 vds) fun lb s =>
    let leading_byte := (lb.headD 0).val
    if leading_byte - leading_byte % 2 ≠ G1_PREFIX_MASK then .error .malformedPoint
    else pbind (readBytes 32 s) fun x s' =>
      .ok ({ y_lsb := leading_byte % 2, x := x }, s')

/-- `parse_g2(vds)`. -/
def parse_g2 (vds : Bytes) : Except Err (G2Point × Bytes) :=
  pbind (readBytes 1 vds) fun lb s =>
    let leading_byte := (lb.headD 0).val
    if leading_byte - leading_byte % 2 ≠ G2_PREFIX_MASK then .error .malformedPoint
    else pbind (readBytes 64 s) fun x s' =>
      .ok ({ y_gt := leading_byte % 2, x := x }, s')

/-- `ZcashTransaction.serialize_g1` (uses nothing of `self`), at byte
level: `leading_byte = G1_PREFIX_MASK; if y_lsb: leading_byte |= 1`
(`G1_PREFIX_MASK | 1 = 3`). -/
def serialize_g1 (p : G1Point) : Bytes :=
  natToLE 1 (if p.y_lsb ≠ 0 then G1_PREFIX_MASK + 1 else G1_PREFIX_MASK) ++ p.x

/-- `ZcashTransaction.serialize_g2` (`G2_PREFIX_MASK | 1 = 11`). -/
def serialize_g2 (p : G2Point) : Bytes :=
  natToLE 1 (if p.y_gt ≠ 0 then G2_PREFIX_MASK + 1 else G2_PREFIX_MASK) ++ p.x

/-- Structural well-formedness of a G1 point record (what a successful
decode guarantees and what a faithful re-encode requires). -/
def WFG1 (p : G1Point) : Prop := p.y_lsb ≤ 1 ∧ p.x.length = 32

/-- Structural well-formedness of a G2 point record. -/
def WFG2 (p : G2Point) : Prop := p.y_gt ≤ 1 ∧ p.x.length = 64

instance (p : G1Point) : Decidable (WFG1 p) := by unfold WFG1; infer_instance

instance (p : G2Point) : Decidable (WFG2 p) := by unfold WFG2; infer_instance

theorem parse_g1_cons (b : Byte) (s : Bytes) :
    parse_g1 (b :: s) =
      if b.val - b.val % 2 ≠ G1_PREFIX_MASK then .error .malformedPoint
      else pbind (readBytes 32 s) fun x s' =>
        .ok ({ y_lsb := b.val % 2, x := x }, s') := by
  unfold parse_g1
  rw [show readBytes 1 (b :: s) = .ok ([b], s) from @readBytes_exact 1 [b] rfl s]
  rfl

theorem parse_g2_cons (b : Byte) (s : Bytes) :
    parse_g2 (b :: s) =
      if b.val - b.val % 2 ≠ G2_PREFIX_MASK then .error .malformedPoint
      else pbind (readBytes 64 s) fun x s' =>
        .ok ({ y_gt := b.val % 2, x := x }, s') := by
  unfold parse_g2
  rw [show readBytes 1 (b :: s) = .ok ([b], s) from @readBytes_exact 1 [b] rfl s]
  rfl

theorem parse_g1_enc {p : G1Point} (hp : WFG1 p) (rest : Bytes) :
    parse_g1 (serialize_g1 p ++ rest) = .ok (p, rest) := by
  obtain ⟨y, x⟩ := p
  obtain ⟨hy, hx⟩ := hp
  have hcases : y = 0 ∨ y = 1 := by
    have : y ≤ 1 := hy
    omega
  rcases hcases with h | h <;> subst h
  · rw [show serialize_g1 ⟨0, x⟩ = (⟨2, by omega⟩ : Byte) :: x from rfl,
      List.cons_append, parse_g1_cons,
      if_neg (show ¬((2 : Nat) - 2 % 2 ≠ G1_PREFIX_MASK) from by
        unfold G1_PREFIX_MASK; omega),
      readBytes_exact hx rest]
    simp only [pbind_ok]
  · rw [show serialize_g1 ⟨1, x⟩ = (⟨3, by omega⟩ : Byte) :: x from rfl,
      List.cons_append, parse_g1_cons,
      if_neg (show ¬((3 : Nat) - 3 % 2 ≠ G1_PREFIX_MASK) from by
        unfold G1_PREFIX_MASK; omega),
      readBytes_exact hx rest]
    simp only [pbind_ok]

theorem parse_g2_enc {p : G2Point} (hp : WFG2 p) (rest : Bytes) :
    parse_g2 (serialize_g2 p ++ rest) = .ok (p, rest) := by
  obtain ⟨y, x⟩ := p
  obtain ⟨hy, hx⟩ := hp
  have hcases : y = 0 ∨ y = 1 := by
    have : y ≤ 1 := hy
    omega
  rcases hcases with h | h <;> subst h
  · rw [show serialize_g2 ⟨0, x⟩ = (⟨10, by omega⟩ : Byte) :: x from rfl,
      List.cons_append, parse_g2_cons,
      if_neg (show ¬((10 : Nat) - 10 % 2 ≠ G2_PREFIX_MASK) from by
        unfold G2_PREFIX_MASK; omega),
      readBytes_exact hx rest]
    simp only [pbind_ok]
  · rw [show serialize_g2 ⟨1, x⟩ = (⟨11, by omega⟩ : Byte) :: x from rfl,
      List.cons_append, parse_g2_cons,
      if_neg (show ¬((11 : Nat) - 11 % 2 ≠ G2_PREFIX_MASK) from by
        unfold G2_PREFIX_MASK; omega),
      readBytes_exact hx rest]
    simp only [pbind_ok]

theorem parse_g1_ok {s rest : Bytes} {p : G1Point}
    (h : parse_g1 s = .ok (p, rest)) :
    s = serialize_g1 p ++ rest ∧ WFG1 p := by
  unfold parse_g1 at h
  obtain ⟨lb, s1, hrb, hf⟩ := pbind_ok_elim h
  obtain ⟨hs, hlen⟩ := readBytes_ok hrb
  obtain ⟨b, hb⟩ : ∃ b, lb = [b] := by
    cases lb with
    | nil => simp at hlen
    | cons c t =>
      cases t with
      | nil => exact ⟨c, rfl⟩
      | cons d t' => simp at hlen
  subst hb
  simp only [List.headD_cons] at hf
  split at hf
  · cases hf
  · rename_i hmark
    obtain ⟨x, s2, hrb2, hf2⟩ := pbind_ok_elim hf
    obtain ⟨hs1, hlen2⟩ := readBytes_ok hrb2
    simp only [Except.ok.injEq, Prod.mk.injEq] at hf2
    obtain ⟨hp, hr⟩ := hf2
    subst hr
    subst hp
    have hm : b.val - b.val % 2 = 2 := by
      have := not_not.mp hmark
      simpa [G1_PREFIX_MASK] using this
    have hbval : b.val = 2 ∨ b.val = 3 := by omega
    refine ⟨?_, by constructor <;> simp <;> omega⟩
    rw [hs, hs1]
    rcases hbval with h2 | h3
    · rw [show b = (⟨2, by omega⟩ : Byte) from Fin.ext h2]
      norm_num [serialize_g1, natToLE, G1_PREFIX_MASK]
    · rw [show b = (⟨3, by omega⟩ : Byte) from Fin.ext h3]
      norm_num [serialize_g1, natToLE, G1_PREFIX_MASK]

theorem parse_g2_ok {s rest : Bytes} {p : G2Point}
    (h : parse_g2 s = .ok (p, rest)) :
    s = serialize_g2 p ++ rest ∧ WFG2 p := by
  unfold parse_g2 at h
  obtain ⟨lb, s1, hrb, hf⟩ := pbind_ok_elim h
  obtain ⟨hs, hlen⟩ := readBytes_ok hrb
  obtain ⟨b, hb⟩ : ∃ b, lb = [b] := by
    cases lb with
    | nil => simp at hlen
    | cons c t =>
      cases t with
      | nil => exact ⟨c, rfl⟩
      | cons d t' => simp at hlen
  subst hb
  simp only [List.headD_cons] at hf
  split at hf
  · cases hf
  · rename_i hmark
    obtain ⟨x, s2, hrb2, hf2⟩ := pbind_ok_elim hf
    obtain ⟨hs1, hlen2⟩ := readBytes_ok hrb2
    simp only [Except.ok.injEq, Prod.mk.injEq] at hf2
    obtain ⟨hp, hr⟩ := hf2
    subst hr
    subst hp
    have hm : b.val - b.val % 2 = 10 := by
      have := not_not.mp hmark
      simpa [G2_PREFIX_MASK] using this
    have hbval : b.val = 10 ∨ b.val = 11 := by omega
    refine ⟨?_, by constructor <;> simp <;> omega⟩
    rw [hs, hs1]
    rcases hbval with h10 | h11
    · rw [show b = (⟨10, by omega⟩ : Byte) from Fin.ext h10]
      norm_num [serialize_g2, natToLE, G2_PREFIX_MASK]
    · rw [show b = (⟨11, by omega⟩ : Byte) from Fin.ext h11]
      norm_num [serialize_g2, natToLE, G2_PREFIX_MASK]

theorem parse_g1_mono {s rest : Bytes} {p : G1Point} (extra : Bytes)
    (h : parse_g1 s = .ok (p, rest)) :
    parse_g1 (s ++ extra) = .ok (p, rest ++ extra) := by
  obtain ⟨hs, hwf⟩ := parse_g1_ok h
  rw [hs, List.append_assoc]
  exact parse_g1_enc hwf _

theorem parse_g2_mono {s rest : Bytes} {p : G2Point} (extra : Bytes)
    (h : parse_g2 s = .ok (p, rest)) :
    parse_g2 (s ++ extra) = .ok (p, rest ++ extra) := by
  obtain ⟨hs, hwf⟩ := parse_g2_ok h
  rw [hs, List.append_assoc]
  exact parse_g2_enc hwf _

/-! ## Proof codec -/

/-- The zk-SNARK proof record, in the source's fixed field order:
`g_A, g_A', g_B, g_B', g_C, g_C', g_K, g_H`, where `g_B` is the single
G2 element and the other seven are G1. -/
structure Proof where
  g_A : G1Point
  g_A_prime : G1Point
  g_B : G2Point
  g_B_prime : G1Point
  g_C : G1Point
  g_C_prime : G1Point
  g_K : G1Point
  g_H : G1Point
deriving DecidableEq, Repr

/-- `parse_proof(vds)`: eight group-element decodes in the fixed order. -/
def parse_proof (vds : Bytes) : Except Err (Proof × Bytes) :=
  pbind (parse_g1 vds) fun gA s1 =>
  pbind (parse_g1 s1) fun gAp s2 =>
  pbind (parse_g2 s2) fun gB s3 =>
  pbind (parse_g1 s3) fun gBp s4 =>
  pbind (parse_g1 s4) fun gC s5 =>
  pbind (parse_g1 s5) fun gCp s6 =>
  pbind (parse_g1 s6) fun gK s7 =>
  pbind (parse_g1 s7) fun gH s8 =>
  .ok ({ g_A := gA, g_A_prime := gAp, g_B := gB, g_B_prime := gBp,
         g_C := gC, g_C_prime := gCp, g_K := gK, g_H := gH }, s8)

/-- `ZcashTransaction.serialize_proof`: the eight encodings concatenated
in the same fixed order. -/
def serialize_proof (proof : Proof) : Bytes :=
  serialize_g1 proof.g_A ++ serialize_g1 proof.g_A_prime ++ serialize_g2 proof.g_B ++
  serialize_g1 proof.g_B_prime ++ serialize_g1 proof.g_C ++ serialize_g1 proof.g_C_prime ++
  serialize_g1 proof.g_K ++ serialize_g1 proof.g_H

/-- Structural well-formedness of a proof record. -/
def WFProof (p : Proof) : Prop :=
  WFG1 p.g_A ∧ WFG1 p.g_A_prime ∧ WFG2 p.g_B ∧ WFG1 p.g_B_prime ∧
  WFG1 p.g_C ∧ WFG1 p.g_C_prime ∧ WFG1 p.g_K ∧ WFG1 p.g_H

instance (p : Proof) : Decidable (WFProof p) := by unfold WFProof; infer_instance

theorem parse_proof_enc {p : Proof} (hp : WFProof p) (rest : Bytes) :
    parse_proof (serialize_proof p ++ rest) = .ok (p, rest) := by
  obtain ⟨h1, h2, h3, h4, h5, h6, h7, h8⟩ := hp
  unfold parse_proof serialize_proof
  simp only [List.append_assoc, parse_g1_enc h1, parse_g1_enc h2, parse_g2_enc h3,
    parse_g1_enc h4, parse_g1_enc h5, parse_g1_enc h6, parse_g1_enc h7, parse_g1_enc h8,
    pbind_ok]

theorem parse_proof_ok {s rest : Bytes} {p : Proof}
    (h : parse_proof s = .ok (p, rest)) :
    s = serialize_proof p ++ rest ∧ WFProof p := by
  unfold parse_proof at h
  obtain ⟨gA, s1, hA, h⟩ := pbind_ok_elim h
  obtain ⟨gAp, s2, hAp, h⟩ := pbind_ok_elim h
  obtain ⟨gB, s3, hB, h⟩ := pbind_ok_elim h
  obtain ⟨gBp, s4, hBp, h⟩ := pbind_ok_elim h
  obtain ⟨gC, s5, hC, h⟩ := pbind_ok_elim h
  obtain ⟨gCp, s6, hCp, h⟩ := pbind_ok_elim h
  obtain ⟨gK, s7, hK, h⟩ := pbind_ok_elim h
  obtain ⟨gH, s8, hH, h⟩ := pbind_ok_elim h
  simp only [Except.ok.injEq, Prod.mk.injEq] at h
  obtain ⟨hp, hr⟩ := h
  subst hr
  subst hp
  obtain ⟨e1, w1⟩ := parse_g1_ok hA
  obtain ⟨e2, w2⟩ := parse_g1_ok hAp
  obtain ⟨e3, w3⟩ := parse_g2_ok hB
  obtain ⟨e4, w4⟩ := parse_g1_ok hBp
  obtain ⟨e5, w5⟩ := parse_g1_ok hC
  obtain ⟨e6, w6⟩ := parse_g1_ok hCp
  obtain ⟨e7, w7⟩ := parse_g1_ok hK
  obtain ⟨e8, w8⟩ := parse_g1_ok hH
  refine ⟨?_, w1, w2, w3, w4, w5, w6, w7, w8⟩
  rw [e1, e2, e3, e4, e5, e6, e7, e8]
  simp only [serialize_proof, List.append_assoc]

theorem parse_proof_mono {s rest : Bytes} {p : Proof} (extra : Bytes)
    (h : parse_proof s = .ok (p, rest)) :
    parse_proof (s ++ extra) = .ok (p, rest ++ extra) := by
  obtain ⟨hs, hwf⟩ := parse_proof_ok h
  rw [hs, List.append_assoc]
  exact parse_proof_enc hwf _

theorem parse_proof_err {s : Bytes} {e : Err}
    (h : parse_proof s = .error e) :
    ∃ s', s'.IsSuffix s ∧ (parse_g1 s' = .error e ∨ parse_g2 s' = .error e) := by
  unfold parse_proof at h
  rcases pbind_error_elim h with h | ⟨gA, s1, hA, h⟩
  · exact ⟨s, List.suffix_refl s, Or.inl h⟩
  have hx1 : s1.IsSuffix s := ⟨serialize_g1 gA, ((parse_g1_ok hA).1).symm⟩
  rcases pbind_error_elim h with h | ⟨gAp, s2, hAp, h⟩
  · exact ⟨s1, hx1, Or.inl h⟩
  have hx2 : s2.IsSuffix s :=
    List.IsSuffix.trans ⟨serialize_g1 gAp, ((parse_g1_ok hAp).1).symm⟩ hx1
  rcases pbind_error_elim h with h | ⟨gB, s3, hB, h⟩
  · exact ⟨s2, hx2, Or.inr h⟩
  have hx3 : s3.IsSuffix s :=
    List.IsSuffix.trans ⟨serialize_g2 gB, ((parse_g2_ok hB).1).symm⟩ hx2
  rcases pbind_error_elim h with h | ⟨gBp, s4, hBp, h⟩
  · exact ⟨s3, hx3, Or.inl h⟩
  have hx4 : s4.IsSuffix s :=
    List.IsSuffix.trans ⟨serialize_g1 gBp, ((parse_g1_ok hBp).1).symm⟩ hx3
  rcases pbind_error_elim h with h | ⟨gC, s5, hC, h⟩
  · exact ⟨s4, hx4, Or.inl h⟩
  have hx5 : s5.IsSuffix s :=
    List.IsSuffix.trans ⟨serialize_g1 gC, ((parse_g1_ok hC).1).symm⟩ hx4
  rcases pbind_error_elim h with h | ⟨gCp, s6, hCp, h⟩
  · exact ⟨s5, hx5, Or.inl h⟩
  have hx6 : s6.IsSuffix s :=
    List.IsSuffix.trans ⟨serialize_g1 gCp, ((parse_g1_ok hCp).1).symm⟩ hx5
  rcases pbind_error_elim h with h | ⟨gK, s7, hK, h⟩
  · exact ⟨s6, hx6, Or.inl h⟩
  have hx7 : s7.IsSuffix s :=
    List.IsSuffix.trans ⟨serialize_g1 gK, ((parse_g1_ok hK).1).symm⟩ hx6
  rcases pbind_error_elim h with h | ⟨gH, s8, hH, h⟩
  · exact ⟨s7, hx7, Or.inl h⟩
  cases h

theorem serialize_g1_length {p : G1Point} (hp : WFG1 p) :
    (serialize_g1 p).length = 33 := by
  obtain ⟨hy, hx⟩ := hp
  unfold serialize_g1
  simp [natToLE_length, hx]

theorem serialize_g2_length {p : G2Point} (hp : WFG2 p) :
    (serialize_g2 p).length = 65 := by
  obtain ⟨hy, hx⟩ := hp
  unfold serialize_g2
  simp [natToLE_length, hx]

theorem serialize_proof_length {p : Proof} (hp : WFProof p) :
    (serialize_proof p).length = 296 := by
  obtain ⟨h1, h2, h3, h4, h5, h6, h7, h8⟩ := hp
  unfold serialize_proof
  simp [serialize_g1_length, serialize_g2_length, h1, h2, h3, h4, h5, h6, h7, h8]

/-! ## JoinSplit descriptor codec -/

/-- Fixed-count fixed-size byte-string reads, modelling the Python list
comprehensions `[vds.read_bytes(size) for i in range(count)]`. -/
def readBytesList (count size : Nat) (s : Bytes) : Except Err (List Bytes × Bytes) :=
  match count with
  | 0 => .ok ([], s)
  | c + 1 =>
    pbind (readBytes size s) fun b s' =>
    pbind (readBytesList c size s') fun bs s'' =>
    .ok (b :: bs, s'')

theorem readBytesList_enc {count size : Nat} {xs : List Bytes}
    (h1 : xs.length = count) (h2 : ∀ x ∈ xs, x.length = size) (rest : Bytes) :
    readBytesList count size (xs.flatten ++ rest) = .ok (xs, rest) := by
  induction xs generalizing count with
  | nil =>
    subst h1
    simp [readBytesList]
  | cons a t ih =>
    subst h1
    simp only [List.length_cons, readBytesList, List.flatten_cons, List.append_assoc]
    rw [readBytes_exact (h2 a (by simp)) _]
    simp only [pbind_ok]
    rw [ih rfl (fun x hx => h2 x (by simp [hx]))]
    simp only [pbind_ok]

theorem readBytesList_ok {count size : Nat} {s rest : Bytes} {xs : List Bytes}
    (h : readBytesList count size s = .ok (xs, rest)) :
    s = xs.flatten ++ rest ∧ xs.length = count ∧ ∀ x ∈ xs, x.length = size := by
  induction count generalizing s xs with
  | zero =>
    simp only [readBytesList] at h
    simp only [Except.ok.injEq, Prod.mk.injEq] at h
    obtain ⟨hx, hr⟩ := h
    subst hx; subst hr
    simp
  | succ c ih =>
    simp only [readBytesList] at h
    obtain ⟨b, s', hrb, h⟩ := pbind_ok_elim h
    obtain ⟨bs, s'', hrl, h⟩ := pbind_ok_elim h
    simp only [Except.ok.injEq, Prod.mk.injEq] at h
    obtain ⟨hx, hr⟩ := h
    subst hx; subst hr
    obtain ⟨e1, l1⟩ := readBytes_ok hrb
    obtain ⟨e2, l2, l3⟩ := ih hrl
    refine ⟨?_, by simp [l2], ?_⟩
    · rw [e1, e2]
      simp [List.append_assoc]
    · intro x hx
      rcases List.mem_cons.mp hx with hh | hh
      · subst hh; exact l1
      · exact l3 x hh

/-- A JoinSplit descriptor, the source's `d` dictionary as a record. -/
structure JoinSplit where
  vpub_old : Int
  vpub_new : Int
  anchor : Bytes
  nullifiers : List Bytes
  commitments : List Bytes
  onetimePubKey : Bytes
  randomSeed : Bytes
  macs : List Bytes
  proof : Proof
  ciphertexts : List Bytes
deriving DecidableEq, Repr

/-- `parse_joinsplit(vds)`: fields strictly in the source's order, every
multi-element field with its fixed protocol count (never a wire-read
count). -/
def parse_joinsplit (vds : Bytes) : Except Err (JoinSplit × Bytes) :=
  pbind (readSignedLE 8 vds) fun vpub_old s1 =>
  pbind (readSignedLE 8 s1) fun vpub_new s2 =>
  pbind (readBytes 32 s2) fun anchor s3 =>
  pbind (readBytesList ZC_NUM_JS_INPUTS 32 s3) fun nullifiers s4 =>
  pbind (readBytesList ZC_NUM_JS_OUTPUTS 32 s4) fun commitments s5 =>
  pbind (readBytes 32 s5) fun onetimePubKey s6 =>
  pbind (readBytes 32 s6) fun randomSeed s7 =>
  pbind (readBytesList ZC_NUM_JS_INPUTS 32 s7) fun macs s8 =>
  pbind (parse_proof s8) fun proof s9 =>
  pbind (readBytesList ZC_NUM_JS_OUTPUTS ZC_NOTECIPHERTEXT_SIZE s9) fun ciphertexts s10 =>
  .ok ({ vpub_old := vpub_old, vpub_new := vpub_new, anchor := anchor,
         nullifiers := nullifiers, commitments := commitments,
         onetimePubKey := onetimePubKey, randomSeed := randomSeed,
         macs := macs, proof := proof, ciphertexts := ciphertexts }, s10)

/-- `ZcashTransaction.serialize_joinsplit`, at byte level. -/
def serialize_joinsplit (jsdesc : JoinSplit) : Bytes :=
  intToLE 8 jsdesc.vpub_old ++ intToLE 8 jsdesc.vpub_new ++ jsdesc.anchor ++
  jsdesc.nullifiers.flatten ++ jsdesc.commitments.flatten ++ jsdesc.onetimePubKey ++
  jsdesc.randomSeed ++ jsdesc.macs.flatten ++ serialize_proof jsdesc.proof ++
  jsdesc.ciphertexts.flatten

/-- Structural well-formedness of a JoinSplit record (guaranteed by a
successful decode; required for a faithful re-encode). -/
def WFJoinSplit (d : JoinSplit) : Prop :=
  (-((2 ^ 63 : Nat) : Int) ≤ d.vpub_old ∧ d.vpub_old < ((2 ^ 63 : Nat) : Int)) ∧
  (-((2 ^ 63 : Nat) : Int) ≤ d.vpub_new ∧ d.vpub_new < ((2 ^ 63 : Nat) : Int)) ∧
  d.anchor.length = 32 ∧
  (d.nullifiers.length = 2 ∧ ∀ x ∈ d.nullifiers, x.length = 32) ∧
  (d.commitments.length = 2 ∧ ∀ x ∈ d.commitments, x.length = 32) ∧
  d.onetimePubKey.length = 32 ∧
  d.randomSeed.length = 32 ∧
  (d.macs.length = 2 ∧ ∀ x ∈ d.macs, x.length = 32) ∧
  WFProof d.proof ∧
  (d.ciphertexts.length = 2 ∧ ∀ x ∈ d.ciphertexts, x.length = ZC_NOTECIPHERTEXT_SIZE)

instance (d : JoinSplit) : Decidable (WFJoinSplit d) := by
  unfold WFJoinSplit; infer_instance

theorem parse_joinsplit_enc {d : JoinSplit} (hd : WFJoinSplit d) (rest : Bytes) :
    parse_joinsplit (serialize_joinsplit d ++ rest) = .ok (d, rest) := by
  obtain ⟨⟨ho1, ho2⟩, ⟨hn1, hn2⟩, ha, ⟨hnf1, hnf2⟩, ⟨hcm1, hcm2⟩, hpk, hrs,
    ⟨hm1, hm2⟩, hpr, ⟨hct1, hct2⟩⟩ := hd
  unfold parse_joinsplit serialize_joinsplit
  simp only [ZC_NUM_JS_INPUTS, ZC_NUM_JS_OUTPUTS, List.append_assoc,
    readSignedLE_exact (show 2 * 2 ^ 63 = 256 ^ 8 from by norm_num) ho1 ho2,
    readSignedLE_exact (show 2 * 2 ^ 63 = 256 ^ 8 from by norm_num) hn1 hn2,
    readBytes_exact ha, readBytesList_enc hnf1 hnf2, readBytesList_enc hcm1 hcm2,
    readBytes_exact hpk, readBytes_exact hrs, readBytesList_enc hm1 hm2,
    parse_proof_enc hpr, readBytesList_enc hct1 hct2, pbind_ok]

theorem parse_joinsplit_ok {s rest : Bytes} {d : JoinSplit}
    (h : parse_joinsplit s = .ok (d, rest)) :
    s = serialize_joinsplit d ++ rest ∧ WFJoinSplit d := by
  unfold parse_joinsplit at h
  obtain ⟨vo, s1, hvo, h⟩ := pbind_ok_elim h
  obtain ⟨vn, s2, hvn, h⟩ := pbind_ok_elim h
  obtain ⟨anc, s3, hanc, h⟩ := pbind_ok_elim h
  obtain ⟨nf, s4, hnf, h⟩ := pbind_ok_elim h
  obtain ⟨cm, s5, hcm, h⟩ := pbind_ok_elim h
  obtain ⟨pk, s6, hpk, h⟩ := pbind_ok_elim h
  obtain ⟨rs, s7, hrs, h⟩ := pbind_ok_elim h
  obtain ⟨mc, s8, hmc, h⟩ := pbind_ok_elim h
  obtain ⟨pr, s9, hpr, h⟩ := pbind_ok_elim h
  obtain ⟨ct, s10, hct, h⟩ := pbind_ok_elim h
  simp only [Except.ok.injEq, Prod.mk.injEq] at h
  obtain ⟨hd, hr⟩ := h
  subst hr
  subst hd
  obtain ⟨e1, r1a, r1b⟩ := readSignedLE_ok (show 2 * 2 ^ 63 = 256 ^ 8 from by norm_num) hvo
  obtain ⟨e2, r2a, r2b⟩ := readSignedLE_ok (show 2 * 2 ^ 63 = 256 ^ 8 from by norm_num) hvn
  obtain ⟨e3, r3⟩ := readBytes_ok hanc
  obtain ⟨e4, r4a, r4b⟩ := readBytesList_ok hnf
  obtain ⟨e5, r5a, r5b⟩ := readBytesList_ok hcm
  obtain ⟨e6, r6⟩ := readBytes_ok hpk
  obtain ⟨e7, r7⟩ := readBytes_ok hrs
  obtain ⟨e8, r8a, r8b⟩ := readBytesList_ok hmc
  obtain ⟨e9, r9⟩ := parse_proof_ok hpr
  obtain ⟨e10, r10a, r10b⟩ := readBytesList_ok hct
  constructor
  · rw [e1, e2, e3, e4, e5, e6, e7, e8, e9, e10]
    simp only [serialize_joinsplit, List.append_assoc]
  · exact ⟨⟨r1a, r1b⟩, ⟨r2a, r2b⟩, r3, ⟨r4a, r4b⟩, ⟨r5a, r5b⟩, r6, r7,
      ⟨r8a, r8b⟩, r9, ⟨r10a, r10b⟩⟩

theorem parse_joinsplit_mono {s rest : Bytes} {d : JoinSplit} (extra : Bytes)
    (h : parse_joinsplit s = .ok (d, rest)) :
    parse_joinsplit (s ++ extra) = .ok (d, rest ++ extra) := by
  obtain ⟨hs, hwf⟩ := parse_joinsplit_ok h
  rw [hs, List.append_assoc]
  exact parse_joinsplit_enc hwf _

theorem join_length_const {xs : List Bytes} {sz : Nat} (h : ∀ x ∈ xs, x.length = sz) :
    xs.flatten.length = sz * xs.length := by
  induction xs with
  | nil => simp
  | cons a t ih =>
    simp only [List.flatten_cons, List.length_append, List.length_cons]
    rw [h a (by simp), ih (fun x hx => h x (by simp [hx]))]
    ring

theorem serialize_joinsplit_length {d : JoinSplit} (hd : WFJoinSplit d) :
    (serialize_joinsplit d).length = 1802 := by
  obtain ⟨⟨ho1, ho2⟩, ⟨hn1, hn2⟩, ha, ⟨hnf1, hnf2⟩, ⟨hcm1, hcm2⟩, hpk, hrs,
    ⟨hm1, hm2⟩, hpr, ⟨hct1, hct2⟩⟩ := hd
  unfold serialize_joinsplit
  simp only [List.length_append, intToLE, natToLE_length, ha, hpk, hrs,
    join_length_const hnf2, join_length_const hcm2, join_length_const hm2,
    join_length_const hct2, hnf1, hcm1, hm1, hct1, serialize_proof_length hpr]
  norm_num [ZC_NOTECIPHERTEXT_SIZE, ZC_NOTEPLAINTEXT_SIZE, ZC_NOTEPLAINTEXT_LEADING,
    ZC_V_SIZE, ZC_RHO_SIZE, ZC_R_SIZE, ZC_MEMO_SIZE, NOTEENCRYPTION_AUTH_BYTES]

/-! ## Transaction envelope codec -/

/-- The external base-layer input/output codec (electrum's
`parse_input`, `parse_output`, `serialize_input` composed with
`input_script`, and `serialize_output`), consumed abstractly.
Modelled from the spec: the base layer is external and out of scope
(§1); `Inp` is a parsed input record, `OutRec` a parsed output record,
`outProj` the `(type, address, value)` projection that the Transaction
entity caches, and `serialize_input`'s `Bool` argument is the
`estimate_size` flag threaded through `input_script`. -/
structure BaseCodec (Inp OutRec Outp : Type) where
  parse_input : Bytes → Except Err (Inp × Bytes)
  parse_output : Bytes → Nat → Except Err (OutRec × Bytes)
  outProj : OutRec → Outp
  serialize_input : Bool → Inp → Bytes
  serialize_output : Outp → Bytes

/-- `[f(vds, i) for i in range(n)]`: `n` successive parses with a
running index `i`. -/
def parseCount {α : Type _} (f : Nat → Bytes → Except Err (α × Bytes)) :
    Nat → Nat → Bytes → Except Err (List α × Bytes)
  | _, 0, s => .ok ([], s)
  | i, n + 1, s =>
    pbind (f i s) fun a s' =>
    pbind (parseCount f (i + 1) n s') fun as s'' =>
    .ok (a :: as, s'')

theorem parseCount_ok {α : Type _} {f : Nat → Bytes → Except Err (α × Bytes)}
    {g : α → Bytes}
    (hf : ∀ i s a rest, f i s = .ok (a, rest) → s = g a ++ rest)
    {i n : Nat} {s rest : Bytes} {xs : List α}
    (h : parseCount f i n s = .ok (xs, rest)) :
    s = (xs.map g).flatten ++ rest ∧ xs.length = n := by
  induction n generalizing i s xs with
  | zero =>
    simp only [parseCount] at h
    simp only [Except.ok.injEq, Prod.mk.injEq] at h
    obtain ⟨hx, hr⟩ := h
    subst hx; subst hr
    simp
  | succ n ih =>
    simp only [parseCount] at h
    obtain ⟨a, s', ha, h⟩ := pbind_ok_elim h
    obtain ⟨as, s'', hl, h⟩ := pbind_ok_elim h
    simp only [Except.ok.injEq, Prod.mk.injEq] at h
    obtain ⟨hx, hr⟩ := h
    subst hx; subst hr
    obtain ⟨e2, l2⟩ := ih hl
    refine ⟨?_, by simp [l2]⟩
    rw [hf i s a s' ha, e2]
    simp [List.append_assoc]

theorem parseCount_mono {α : Type _} {f : Nat → Bytes → Except Err (α × Bytes)}
    (hm : ∀ i s a rest extra, f i s = .ok (a, rest) → f i (s ++ extra) = .ok (a, rest ++ extra))
    {i n : Nat} {s rest : Bytes} {xs : List α} (extra : Bytes)
    (h : parseCount f i n s = .ok (xs, rest)) :
    parseCount f i n (s ++ extra) = .ok (xs, rest ++ extra) := by
  induction n generalizing i s xs with
  | zero =>
    simp only [parseCount] at h ⊢
    simp only [Except.ok.injEq, Prod.mk.injEq] at h ⊢
    exact ⟨h.1, by rw [h.2]⟩
  | succ n ih =>
    simp only [parseCount] at h ⊢
    obtain ⟨a, s', ha, h⟩ := pbind_ok_elim h
    obtain ⟨as, s'', hl, h⟩ := pbind_ok_elim h
    simp only [Except.ok.injEq, Prod.mk.injEq] at h
    obtain ⟨hx, hr⟩ := h
    subst hx; subst hr
    rw [hm i s a s' extra ha]
    simp only [pbind_ok]
    rw [ih hl]
    simp only [pbind_ok]

/-- The dictionary returned by the module-level `deserialize(raw)`. -/
structure TxD (Inp OutRec : Type) where
  version : Int
  inputs : List Inp
  outputs : List OutRec
  lockTime : Nat
  joinsplits : Option (List JoinSplit)
  joinSplitPubKey : Option Bytes
  joinSplitSig : Option Bytes
deriving DecidableEq

/-- The module-level `deserialize(raw)`, parameterized over the
compact-size reader so that the canonical-encoding strict variant can be
expressed with the same body.  The leftover suffix of the buffer (which
the Python stream simply never reads) is returned alongside. -/
def deserializeRawWith {Inp OutRec Outp : Type}
    (rc : Bytes → Except Err (Nat × Bytes)) (C : BaseCodec Inp OutRec Outp)
    (raw : Bytes) : Except Err (TxD Inp OutRec × Bytes) :=
  pbind (readSignedLE 4 raw) fun version s1 =>
  pbind (rc s1) fun n_vin s2 =>
  pbind (parseCount (fun _ s => C.parse_input s) 0 n_vin s2) fun inputs s3 =>
  pbind (rc s3) fun n_vout s4 =>
  pbind (parseCount (fun i s => C.parse_output s i) 0 n_vout s4) fun outputs s5 =>
  pbind (readUnsignedLE 4 s5) fun lockTime s6 =>
  if 2 ≤ version then
    pbind (rc s6) fun n_vjoinsplit s7 =>
    pbind (parseCount (fun _ s => parse_joinsplit s) 0 n_vjoinsplit s7) fun joinsplits s8 =>
    if joinsplits ≠ [] then
      pbind (readBytes 32 s8) fun joinSplitPubKey s9 =>
      pbind (readBytes 64 s9) fun joinSplitSig s10 =>
      .ok ({ version := version, inputs := inputs, outputs := outputs,
             lockTime := lockTime, joinsplits := some joinsplits,
             joinSplitPubKey := some joinSplitPubKey,
             joinSplitSig := some joinSplitSig }, s10)
    else
      .ok ({ version := version, inputs := inputs, outputs := outputs,
             lockTime := lockTime, joinsplits := some joinsplits,
             joinSplitPubKey := none, joinSplitSig := none }, s8)
  else
    .ok ({ version := version, inputs := inputs, outputs := outputs,
           lockTime := lockTime, joinsplits := none,
           joinSplitPubKey := none, joinSplitSig := none }, s6)

/-- The source's `deserialize(raw)` (its compact-size reader accepts any
wire encoding). -/
def deserializeRaw {Inp OutRec Outp : Type} (C : BaseCodec Inp OutRec Outp)
    (raw : Bytes) : Except Err (TxD Inp OutRec × Bytes) :=
  deserializeRawWith readCompactSize C raw

/-- Well-formedness decoder: same body with canonical compact sizes
required.  "A well-formed raw transaction byte sequence of this format"
is one this decoder accepts while consuming the whole buffer. -/
def deserializeRawStrict {Inp OutRec Outp : Type} (C : BaseCodec Inp OutRec Outp)
    (raw : Bytes) : Except Err (TxD Inp OutRec × Bytes) :=
  deserializeRawWith readCompactSizeStrict C raw

theorem deserializeRaw_of_strict {Inp OutRec Outp : Type} {C : BaseCodec Inp OutRec Outp}
    {b : Bytes} {r : TxD Inp OutRec × Bytes}
    (h : deserializeRawStrict C b = .ok r) : deserializeRaw C b = .ok r := by
  unfold deserializeRawStrict deserializeRawWith at h
  unfold deserializeRaw deserializeRawWith
  obtain ⟨v, s1, hv, h⟩ := pbind_ok_elim h
  rw [hv]
  simp only [pbind_ok]
  obtain ⟨nvin, s2, hn1, h⟩ := pbind_ok_elim h
  rw [readCompactSize_of_strict hn1]
  simp only [pbind_ok]
  obtain ⟨ins, s3, hi, h⟩ := pbind_ok_elim h
  rw [hi]
  simp only [pbind_ok]
  obtain ⟨nvout, s4, hn2, h⟩ := pbind_ok_elim h
  rw [readCompactSize_of_strict hn2]
  simp only [pbind_ok]
  obtain ⟨outs, s5, ho, h⟩ := pbind_ok_elim h
  rw [ho]
  simp only [pbind_ok]
  obtain ⟨lt, s6, hlt, h⟩ := pbind_ok_elim h
  rw [hlt]
  simp only [pbind_ok]
  split at h
  · rename_i hver
    rw [if_pos hver]
    obtain ⟨njs, s7, hn3, h⟩ := pbind_ok_elim h
    rw [readCompactSize_of_strict hn3]
    simp only [pbind_ok]
    obtain ⟨js, s8, hjs, h⟩ := pbind_ok_elim h
    rw [hjs]
    simp only [pbind_ok]
    exact h
  · rename_i hver
    rw [if_neg hver]
    exact h

/-- Full case inversion of a successful envelope decode: the resulting
dictionary is one of the three shapes (legacy version, extended with
descriptors, extended with an empty descriptor list). -/
theorem deserializeRawWith_cases {Inp OutRec Outp : Type}
    {rc : Bytes → Except Err (Nat × Bytes)} {C : BaseCodec Inp OutRec Outp}
    {b rest : Bytes} {d : TxD Inp OutRec}
    (h : deserializeRawWith rc C b = .ok (d, rest)) :
    ∃ v ins outs lt,
      (v < 2 ∧ d = TxD.mk v ins outs lt none none none) ∨
      (2 ≤ v ∧ ∃ js pk sig, js ≠ [] ∧ pk.length = 32 ∧ sig.length = 64 ∧
        d = TxD.mk v ins outs lt (some js) (some pk) (some sig)) ∨
      (2 ≤ v ∧ d = TxD.mk v ins outs lt (some []) none none) := by
  unfold deserializeRawWith at h
  obtain ⟨v, s1, hv, h⟩ := pbind_ok_elim h
  obtain ⟨nvin, s2, hn1, h⟩ := pbind_ok_elim h
  obtain ⟨ins, s3, hi, h⟩ := pbind_ok_elim h
  obtain ⟨nvout, s4, hn2, h⟩ := pbind_ok_elim h
  obtain ⟨outs, s5, ho, h⟩ := pbind_ok_elim h
  obtain ⟨lt, s6, hlt, h⟩ := pbind_ok_elim h
  refine ⟨v, ins, outs, lt, ?_⟩
  split at h
  · rename_i hver
    obtain ⟨njs, s7, hn3, h⟩ := pbind_ok_elim h
    obtain ⟨js, s8, hjs, h⟩ := pbind_ok_elim h
    split at h
    · rename_i hne
      obtain ⟨pk, s9, hpk, h⟩ := pbind_ok_elim h
      obtain ⟨sig, s10, hsig, h⟩ := pbind_ok_elim h
      simp only [Except.ok.injEq, Prod.mk.injEq] at h
      exact Or.inr (Or.inl ⟨hver, js, pk, sig, hne,
        (readBytes_ok hpk).2, (readBytes_ok hsig).2, h.1.symm⟩)
    · rename_i hne
      simp only [Except.ok.injEq, Prod.mk.injEq] at h
      have hjs0 : js = [] := not_not.mp hne
      subst hjs0
      exact Or.inr (Or.inr ⟨hver, h.1.symm⟩)
  · rename_i hver
    simp only [Except.ok.injEq, Prod.mk.injEq] at h
    exact Or.inl ⟨by omega, h.1.symm⟩

theorem deserializeRaw_mono {Inp OutRec Outp : Type} {C : BaseCodec Inp OutRec Outp}
    (hmIn : ∀ s a rest extra, C.parse_input s = .ok (a, rest) →
      C.parse_input (s ++ extra) = .ok (a, rest ++ extra))
    (hmOut : ∀ i s o rest extra, C.parse_output s i = .ok (o, rest) →
      C.parse_output (s ++ extra) i = .ok (o, rest ++ extra))
    {b rest : Bytes} {d : TxD Inp OutRec} (extra : Bytes)
    (h : deserializeRaw C b = .ok (d, rest)) :
    deserializeRaw C (b ++ extra) = .ok (d, rest ++ extra) := by
  unfold deserializeRaw deserializeRawWith at h ⊢
  obtain ⟨v, s1, hv, h⟩ := pbind_ok_elim h
  rw [readSignedLE_mono (show 2 * 2 ^ 31 = 256 ^ 4 from by norm_num) extra hv]
  simp only [pbind_ok]
  obtain ⟨nvin, s2, hn1, h⟩ := pbind_ok_elim h
  rw [readCompactSize_mono extra hn1]
  simp only [pbind_ok]
  obtain ⟨ins, s3, hi, h⟩ := pbind_ok_elim h
  rw [parseCount_mono (fun i s a rest e hh => hmIn s a rest e hh) extra hi]
  simp only [pbind_ok]
  obtain ⟨nvout, s4, hn2, h⟩ := pbind_ok_elim h
  rw [readCompactSize_mono extra hn2]
  simp only [pbind_ok]
  obtain ⟨outs, s5, ho, h⟩ := pbind_ok_elim h
  rw [parseCount_mono (fun i s o rest e hh => hmOut i s o rest e hh) extra ho]
  simp only [pbind_ok]
  obtain ⟨lt, s6, hlt, h⟩ := pbind_ok_elim h
  rw [readUnsignedLE_mono extra hlt]
  simp only [pbind_ok]
  split at h
  · rename_i hver
    rw [if_pos hver]
    obtain ⟨njs, s7, hn3, h⟩ := pbind_ok_elim h
    rw [readCompactSize_mono extra hn3]
    simp only [pbind_ok]
    obtain ⟨js, s8, hjs, h⟩ := pbind_ok_elim h
    rw [parseCount_mono (fun i s a rest e hh => parse_joinsplit_mono e hh) extra hjs]
    simp only [pbind_ok]
    split at h
    · rename_i hne
      rw [if_pos hne]
      obtain ⟨pk, s9, hpk, h⟩ := pbind_ok_elim h
      rw [readBytes_mono extra hpk]
      simp only [pbind_ok]
      obtain ⟨sig, s10, hsig, h⟩ := pbind_ok_elim h
      rw [readBytes_mono extra hsig]
      simp only [pbind_ok]
      simp only [Except.ok.injEq, Prod.mk.injEq] at h ⊢
      exact ⟨h.1, by rw [h.2]⟩
    · rename_i hne
      rw [if_neg hne]
      simp only [Except.ok.injEq, Prod.mk.injEq] at h ⊢
      exact ⟨h.1, by rw [h.2]⟩
  · rename_i hver
    rw [if_neg hver]
    simp only [Except.ok.injEq, Prod.mk.injEq] at h ⊢
    exact ⟨h.1, by rw [h.2]⟩

theorem intToLE_coe {k n : Nat} (h : n < 256 ^ k) : intToLE k (n : Int) = natToLE k n := by
  have hcast : ((256 ^ k : Nat) : Int) = (256 : Int) ^ k := by push_cast; ring
  unfold intToLE
  rw [Int.emod_eq_of_lt (by positivity) (by rw [← hcast]; exact_mod_cast h)]
  simp

/-- The byte image that `ZcashTransaction.serialize` produces from a
fully decoded dictionary `d` (with `estimate_size = False`): version,
compact input count and inputs, compact output count and outputs,
locktime, and — only for `version >= 2` — the shielded section. -/
def serializeTxD {Inp OutRec Outp : Type} (C : BaseCodec Inp OutRec Outp)
    (d : TxD Inp OutRec) : Bytes :=
  let nVersion := intToLE 4 d.version
  let nLocktime := intToLE 4 (d.lockTime : Int)
  let outputs := d.outputs.map C.outProj
  let txins := varInt d.inputs.length ++ (d.inputs.map (C.serialize_input false)).flatten
  let txouts := varInt outputs.length ++ (outputs.map C.serialize_output).flatten
  if 2 ≤ d.version then
    let joinsplits := d.joinsplits.getD []
    let txjoinsplits := varInt joinsplits.length ++
      (joinsplits.map serialize_joinsplit).flatten
    if joinsplits ≠ [] then
      nVersion ++ txins ++ txouts ++ nLocktime ++ txjoinsplits ++
        d.joinSplitPubKey.getD [] ++ d.joinSplitSig.getD []
    else
      nVersion ++ txins ++ txouts ++ nLocktime ++ txjoinsplits
  else
    nVersion ++ txins ++ txouts ++ nLocktime

/-- Decode-then-encode: a byte sequence accepted by the strict
(canonical-compact-size) decoder is reproduced exactly by the
serializer, provided the external input/output codecs round-trip. -/
theorem tx_strict_decomp {Inp OutRec Outp : Type} {C : BaseCodec Inp OutRec Outp}
    (HinRT : ∀ s a rest, C.parse_input s = .ok (a, rest) →
      s = C.serialize_input false a ++ rest)
    (HoutRT : ∀ i s o rest, C.parse_output s i = .ok (o, rest) →
      s = C.serialize_output (C.outProj o) ++ rest)
    {b rest : Bytes} {d : TxD Inp OutRec}
    (h : deserializeRawStrict C b = .ok (d, rest)) :
    b = serializeTxD C d ++ rest := by
  unfold deserializeRawStrict deserializeRawWith at h
  obtain ⟨v, s1, hv, h⟩ := pbind_ok_elim h
  obtain ⟨nvin, s2, hn1, h⟩ := pbind_ok_elim h
  obtain ⟨ins, s3, hi, h⟩ := pbind_ok_elim h
  obtain ⟨nvout, s4, hn2, h⟩ := pbind_ok_elim h
  obtain ⟨outs, s5, ho, h⟩ := pbind_ok_elim h
  obtain ⟨lt, s6, hlt, h⟩ := pbind_ok_elim h
  obtain ⟨ev, _, _⟩ := readSignedLE_ok (show 2 * 2 ^ 31 = 256 ^ 4 from by norm_num) hv
  obtain ⟨en1, _⟩ := readCompactSizeStrict_ok hn1
  obtain ⟨ei, li⟩ := parseCount_ok (fun i s a r hh => HinRT s a r hh) hi
  obtain ⟨en2, _⟩ := readCompactSizeStrict_ok hn2
  obtain ⟨eo, lo⟩ := parseCount_ok (fun i s o r hh => HoutRT i s o r hh) ho
  obtain ⟨elt, llt⟩ := readUnsignedLE_ok hlt
  split at h
  · rename_i hver
    obtain ⟨njs, s7, hn3, h⟩ := pbind_ok_elim h
    obtain ⟨js, s8, hjs, h⟩ := pbind_ok_elim h
    obtain ⟨en3, _⟩ := readCompactSizeStrict_ok hn3
    obtain ⟨ejs, ljs⟩ :=
      parseCount_ok (fun i s a r hh => (parse_joinsplit_ok hh).1) hjs
    split at h
    · rename_i hne
      obtain ⟨pk, s9, hpk, h⟩ := pbind_ok_elim h
      obtain ⟨sig, s10, hsig, h⟩ := pbind_ok_elim h
      simp only [Except.ok.injEq, Prod.mk.injEq] at h
      obtain ⟨hd, hr⟩ := h
      obtain ⟨epk, _⟩ := readBytes_ok hpk
      obtain ⟨esig, _⟩ := readBytes_ok hsig
      subst hr
      rw [ev, en1, ei, en2, eo, elt, en3, ejs, epk, esig, ← hd]
      unfold serializeTxD
      simp only [Option.getD_some]
      rw [if_pos (show 2 ≤ (TxD.mk v ins outs lt (some js) (some pk) (some sig)).version
        from hver)]
      rw [if_pos hne]
      simp only [List.map_map, intToLE_coe llt, li, lo, ljs,
        List.length_map, List.append_assoc, Function.comp_def]
    · rename_i hne
      simp only [Except.ok.injEq, Prod.mk.injEq] at h
      obtain ⟨hd, hr⟩ := h
      have hjs0 : js = [] := not_not.mp hne
      subst hr
      rw [ev, en1, ei, en2, eo, elt, en3, ejs, ← hd]
      unfold serializeTxD
      simp only [Option.getD_some]
      rw [if_pos (show 2 ≤ (TxD.mk v ins outs lt (some js) none none).version from hver)]
      rw [if_neg hne]
      simp only [List.map_map, intToLE_coe llt, li, lo, ljs,
        List.length_map, List.append_assoc, Function.comp_def]
  · rename_i hver
    simp only [Except.ok.injEq, Prod.mk.injEq] at h
    obtain ⟨hd, hr⟩ := h
    subst hr
    rw [ev, en1, ei, en2, eo, elt, ← hd]
    unfold serializeTxD
    rw [if_neg (show ¬(2 ≤ (TxD.mk v ins outs lt none none none).version) from hver)]
    simp only [List.map_map, intToLE_coe llt, li, lo,
      List.length_map, List.append_assoc, Function.comp_def]

/-! ## Transaction entity (lazy materialization) -/

/-- The `ZcashTransaction` object's state: the raw buffer and the lazily
populated field cache (`None` = unset, as in the Python attributes). -/
structure TxEntity (Inp Outp : Type) where
  raw : Option Bytes
  _inputs : Option (List Inp)
  _outputs : Option (List Outp)
  locktime : Nat
  version : Int
  _joinsplits : Option (List JoinSplit)
  joinSplitPubKey : Option Bytes
  joinSplitSig : Option Bytes
deriving DecidableEq

/-- `ZcashTransaction.__init__(raw)`.  Modelled from the spec: the base
class `Transaction.__init__` (external) stores the raw bytes and leaves
the caches unset; the numeric defaults are immaterial to the claims. -/
def ZcashTransaction_new {Inp Outp : Type} (raw : Bytes) : TxEntity Inp Outp :=
  { raw := some raw, _inputs := none, _outputs := none, locktime := 0,
    version := 1, _joinsplits := none, joinSplitPubKey := none, joinSplitSig := none }

/-- `ZcashTransaction.deserialize(self)`: no-op when raw bytes are
absent or the cache is populated; otherwise one full decode, with the
cache assignments happening only after the decode returns (a raised
error propagates with the entity unchanged).  Returns the post-state and
the outcome (`ok none` models Python's early `return`, `ok (some d)`
the `return d`). -/
def ZcashTransaction.deserialize {Inp OutRec Outp : Type}
    (C : BaseCodec Inp OutRec Outp) (e : TxEntity Inp Outp) :
    TxEntity Inp Outp × Except Err (Option (TxD Inp OutRec)) :=
  match e.raw with
  | none => (e, .ok none)
  | some raw =>
    match e._inputs with
    | some _ => (e, .ok none)
    | none =>
      match deserializeRaw C raw with
      | .error err => (e, .error err)
      | .ok (d, _) =>
        ({ e with
            _inputs := some d.inputs,
            _outputs := some (d.outputs.map C.outProj),
            locktime := d.lockTime,
            version := d.version,
            _joinsplits := d.joinsplits,
            joinSplitPubKey := d.joinSplitPubKey,
            joinSplitSig := d.joinSplitSig }, .ok (some d))

/-- `ZcashTransaction.joinsplits(self)`: deserialize if the joinsplit
cache is cold, then return the cached field (which stays unset for a
version-1 transaction). -/
def ZcashTransaction.joinsplits {Inp OutRec Outp : Type}
    (C : BaseCodec Inp OutRec Outp) (e : TxEntity Inp Outp) :
    TxEntity Inp Outp × Except Err (Option (List JoinSplit)) :=
  if e._joinsplits = none then
    match ZcashTransaction.deserialize C e with
    | (e', .error err) => (e', .error err)
    | (e', .ok _) => (e', .ok e'._joinsplits)
  else (e, .ok e._joinsplits)

/-- `ZcashTransaction.serialize(self, estimate_size=False,
witness=False)`.  The witness check comes first; the accessor calls
(`self.inputs()` etc.) trigger one lazy `deserialize`, modelled by the
single up-front entity deserialize; `.getD []` stands for the plain
attribute reads, which on every reachable path of a populated entity hit
`some` values. -/
def ZcashTransaction.serializeBody {Inp OutRec Outp : Type}
    (C : BaseCodec Inp OutRec Outp) (estimate_size : Bool)
    (e' : TxEntity Inp Outp) : Bytes :=
  let nVersion := intToLE 4 e'.version
  let nLocktime := intToLE 4 (e'.locktime : Int)
  let inputs := e'._inputs.getD []
  let outputs := e'._outputs.getD []
  let txins := varInt inputs.length ++
    (inputs.map (C.serialize_input estimate_size)).flatten
  let txouts := varInt outputs.length ++ (outputs.map C.serialize_output).flatten
  if 2 ≤ e'.version then
    let joinsplits := e'._joinsplits.getD []
    let txjoinsplits := varInt joinsplits.length ++
      (joinsplits.map serialize_joinsplit).flatten
    if joinsplits ≠ [] then
      nVersion ++ txins ++ txouts ++ nLocktime ++ txjoinsplits ++
        e'.joinSplitPubKey.getD [] ++ e'.joinSplitSig.getD []
    else
      nVersion ++ txins ++ txouts ++ nLocktime ++ txjoinsplits
  else
    nVersion ++ txins ++ txouts ++ nLocktime

def ZcashTransaction.serialize {Inp OutRec Outp : Type}
    (C : BaseCodec Inp OutRec Outp) (estimate_size witness : Bool)
    (e : TxEntity Inp Outp) : Except Err Bytes :=
  if witness then .error .unsupportedFeature
  else
    match ZcashTransaction.deserialize C e with
    | (_, .error err) => .error err
    | (e', .ok _) => .ok (ZcashTransaction.serializeBody C estimate_size e')

theorem ZT_deserialize_none_raw {Inp OutRec Outp : Type} {C : BaseCodec Inp OutRec Outp}
    {e : TxEntity Inp Outp} (h : e.raw = none) :
    ZcashTransaction.deserialize C e = (e, .ok none) := by
  unfold ZcashTransaction.deserialize
  rw [h]

theorem ZT_deserialize_cached {Inp OutRec Outp : Type} {C : BaseCodec Inp OutRec Outp}
    {e : TxEntity Inp Outp} {l : List Inp} (h : e._inputs = some l) :
    ZcashTransaction.deserialize C e = (e, .ok none) := by
  unfold ZcashTransaction.deserialize
  cases hr : e.raw with
  | none => rfl
  | some raw => rw [h]

theorem ZT_deserialize_err {Inp OutRec Outp : Type} {C : BaseCodec Inp OutRec Outp}
    {e : TxEntity Inp Outp} {raw : Bytes} {err : Err}
    (h1 : e.raw = some raw) (h2 : e._inputs = none)
    (h3 : deserializeRaw C raw = .error err) :
    ZcashTransaction.deserialize C e = (e, .error err) := by
  unfold ZcashTransaction.deserialize
  simp only [h1, h2, h3]

/-- The cache contents after a successful parse of `raw` into `d`. -/
def entityOfDict {Inp OutRec Outp : Type} (C : BaseCodec Inp OutRec Outp)
    (raw : Bytes) (d : TxD Inp OutRec) : TxEntity Inp Outp :=
  { raw := some raw,
    _inputs := some d.inputs,
    _outputs := some (d.outputs.map C.outProj),
    locktime := d.lockTime,
    version := d.version,
    _joinsplits := d.joinsplits,
    joinSplitPubKey := d.joinSplitPubKey,
    joinSplitSig := d.joinSplitSig }

theorem ZT_deserialize_parses {Inp OutRec Outp : Type} {C : BaseCodec Inp OutRec Outp}
    {raw rest : Bytes} {d : TxD Inp OutRec}
    (h3 : deserializeRaw C raw = .ok (d, rest)) :
    ZcashTransaction.deserialize C (ZcashTransaction_new raw) =
      (entityOfDict C raw d, .ok (some d)) := by
  unfold ZcashTransaction.deserialize ZcashTransaction_new entityOfDict
  simp only [h3]

theorem serialize_entityOfDict {Inp OutRec Outp : Type} {C : BaseCodec Inp OutRec Outp}
    (raw : Bytes) (d : TxD Inp OutRec) :
    ZcashTransaction.serialize C false false (entityOfDict C raw d) =
      .ok (serializeTxD C d) := by
  unfold ZcashTransaction.serialize
  rw [if_neg (show ¬(false = true) from by simp)]
  rw [ZT_deserialize_cached
    (show (entityOfDict C raw d)._inputs = some d.inputs from rfl)]
  show Except.ok (ZcashTransaction.serializeBody C false (entityOfDict C raw d)) =
    Except.ok (serializeTxD C d)
  rfl

theorem entity_roundtrip {Inp OutRec Outp : Type} {C : BaseCodec Inp OutRec Outp}
    {b rest : Bytes} {d : TxD Inp OutRec}
    (hlen : deserializeRaw C b = .ok (d, rest)) :
    ZcashTransaction.serialize C false false
      ((ZcashTransaction.deserialize C (ZcashTransaction_new b)).1) =
      .ok (serializeTxD C d) := by
  rw [ZT_deserialize_parses hlen]
  exact serialize_entityOfDict b d

/-! ## Concrete instantiation for witnesses -/

/-- A degenerate external base codec over `Unit` records (zero-byte
inputs and outputs), used to instantiate the abstract base layer on
concrete byte inputs. -/
def TrivCodec : BaseCodec Unit Unit Unit :=
  { parse_input := fun s => .ok ((), s),
    parse_output := fun s _ => .ok ((), s),
    outProj := id,
    serialize_input := fun _ _ => [],
    serialize_output := fun _ => [] }

theorem TrivCodec_inRT : ∀ s a rest, TrivCodec.parse_input s = .ok (a, rest) →
    s = TrivCodec.serialize_input false a ++ rest := by
  intro s a rest h
  simp only [TrivCodec, Except.ok.injEq, Prod.mk.injEq] at h ⊢
  rw [← h.2]
  simp

theorem TrivCodec_outRT : ∀ i s o rest, TrivCodec.parse_output s i = .ok (o, rest) →
    s = TrivCodec.serialize_output (TrivCodec.outProj o) ++ rest := by
  intro i s o rest h
  simp only [TrivCodec, Except.ok.injEq, Prod.mk.injEq] at h ⊢
  rw [← h.2]
  simp

theorem TrivCodec_inMono : ∀ s a rest extra, TrivCodec.parse_input s = .ok (a, rest) →
    TrivCodec.parse_input (s ++ extra) = .ok (a, rest ++ extra) := by
  intro s a rest extra h
  simp only [TrivCodec, Except.ok.injEq, Prod.mk.injEq] at h ⊢
  rw [← h.2]
  simp

theorem TrivCodec_outMono : ∀ i s o rest extra, TrivCodec.parse_output s i = .ok (o, rest) →
    TrivCodec.parse_output (s ++ extra) i = .ok (o, rest ++ extra) := by
  intro i s o rest extra h
  simp only [TrivCodec, Except.ok.injEq, Prod.mk.injEq] at h ⊢
  rw [← h.2]
  simp

set_option maxRecDepth 4096 in
theorem byte_and_fe (b : Byte) : b.val &&& 0xFE = b.val - b.val % 2 := by
  revert b
  decide

set_option maxRecDepth 4096 in
theorem byte_and_one (b : Byte) : b.val &&& 1 = b.val % 2 := by
  revert b
  decide

/-- Witness fixture: a structurally well-formed proof record. -/
def pw : Proof :=
  { g_A := ⟨0, List.replicate 32 0⟩, g_A_prime := ⟨1, List.replicate 32 1⟩,
    g_B := ⟨0, List.replicate 64 2⟩, g_B_prime := ⟨1, List.replicate 32 3⟩,
    g_C := ⟨0, List.replicate 32 4⟩, g_C_prime := ⟨1, List.replicate 32 5⟩,
    g_K := ⟨0, List.replicate 32 6⟩, g_H := ⟨1, List.replicate 32 7⟩ }

/-- Witness fixture: a structurally well-formed JoinSplit descriptor. -/
def jsw : JoinSplit :=
  { vpub_old := 5, vpub_new := 7, anchor := List.replicate 32 8,
    nullifiers := [List.replicate 32 9, List.replicate 32 10],
    commitments := [List.replicate 32 11, List.replicate 32 12],
    onetimePubKey := List.replicate 32 13, randomSeed := List.replicate 32 14,
    macs := [List.replicate 32 15, List.replicate 32 16],
    proof := pw,
    ciphertexts := [List.replicate 601 17, List.replicate 601 18] }

/-- Witness fixture: version-1 transaction, no inputs, no outputs,
locktime 0. -/
def bw1 : Bytes := [1, 0, 0, 0, 0, 0, 0, 0, 0, 0]

/-- Witness fixture: version-2 transaction, no inputs, no outputs,
locktime 0, zero JoinSplit descriptors. -/
def bw2 : Bytes := [2, 0, 0, 0, 0, 0, 0, 0, 0, 0, 0]

/-- The dictionary `bw1` decodes to. -/
def dw1 : TxD Unit Unit := ⟨1, [], [], 0, none, none, none⟩

/-- The dictionary `bw2` decodes to. -/
def dw2 : TxD Unit Unit := ⟨2, [], [], 0, some [], none, none⟩

/-! ## Claims -/

/-- C3: `decode_g1` rejects leading bytes `0x00`, `0x01`, `0x04`, `0x0b`
(and in general every byte whose value with bit 0 cleared differs from
`0x02`) with `MalformedPoint`, and accepts `0x02`/`0x03`, setting
`y_lsb` to 0/1 and taking the next 32 bytes verbatim as `x`;
symmetrically `decode_g2` accepts `0x0a`/`0x0b` (setting `y_gt` to 0/1,
64 bytes of `x`) and rejects every leading byte whose value with bit 0
cleared differs from `0x0a`. -/
theorem claim_C3 (x32 x64 rest : Bytes) (h32 : x32.length = 32) (h64 : x64.length = 64) :
    (∀ b : Byte, b.val - b.val % 2 ≠ 0x02 → parse_g1 (b :: rest) = .error .malformedPoint) ∧
    parse_g1 ((0x00 : Byte) :: rest) = .error .malformedPoint ∧
    parse_g1 ((0x01 : Byte) :: rest) = .error .malformedPoint ∧
    parse_g1 ((0x04 : Byte) :: rest) = .error .malformedPoint ∧
    parse_g1 ((0x0b : Byte) :: rest) = .error .malformedPoint ∧
    parse_g1 ((0x02 : Byte) :: (x32 ++ rest)) = .ok (⟨0, x32⟩, rest) ∧
    parse_g1 ((0x03 : Byte) :: (x32 ++ rest)) = .ok (⟨1, x32⟩, rest) ∧
    parse_g2 ((0x0a : Byte) :: (x64 ++ rest)) = .ok (⟨0, x64⟩, rest) ∧
    parse_g2 ((0x0b : Byte) :: (x64 ++ rest)) = .ok (⟨1, x64⟩, rest) ∧
    (∀ b : Byte, b.val - b.val % 2 ≠ 0x0a → parse_g2 (b :: rest) = .error .malformedPoint) := by
  have hg1 : ∀ b : Byte, b.val - b.val % 2 ≠ 0x02 →
      parse_g1 (b :: rest) = .error .malformedPoint := by
    intro b hb
    rw [parse_g1_cons]
    unfold G1_PREFIX_MASK
    rw [if_pos hb]
  have hg2 : ∀ b : Byte, b.val - b.val % 2 ≠ 0x0a →
      parse_g2 (b :: rest) = .error .malformedPoint := by
    intro b hb
    rw [parse_g2_cons]
    unfold G2_PREFIX_MASK
    rw [if_pos hb]
  refine ⟨hg1, hg1 _ (by decide), hg1 _ (by decide), hg1 _ (by decide), hg1 _ (by decide),
    ?_, ?_, ?_, ?_, hg2⟩
  · exact @parse_g1_enc ⟨0, x32⟩ ⟨Nat.zero_le 1, h32⟩ rest
  · exact @parse_g1_enc ⟨1, x32⟩ ⟨Nat.le_refl 1, h32⟩ rest
  · exact @parse_g2_enc ⟨0, x64⟩ ⟨Nat.zero_le 1, h64⟩ rest
  · exact @parse_g2_enc ⟨1, x64⟩ ⟨Nat.le_refl 1, h64⟩ rest

theorem claim_C3_witness :
    (List.replicate 32 (0 : Byte)).length = 32 ∧
    (List.replicate 64 (0 : Byte)).length = 64 ∧
    parse_g1 ((0x02 : Byte) :: (List.replicate 32 (0 : Byte) ++ [])) =
      .ok (⟨0, List.replicate 32 (0 : Byte)⟩, []) ∧
    parse_g2 ((0x0b : Byte) :: (List.replicate 64 (0 : Byte) ++ [])) =
      .ok (⟨1, List.replicate 64 (0 : Byte)⟩, []) := by
  refine ⟨by simp, by simp, ?_, ?_⟩
  · exact (claim_C3 (List.replicate 32 0) (List.replicate 64 0) [] (by simp)
      (by simp)).2.2.2.2.2.1
  · exact (claim_C3 (List.replicate 32 0) (List.replicate 64 0) [] (by simp)
      (by simp)).2.2.2.2.2.2.2.2.1

/-- C4 counterexample: the claim says `decode_g1` fails with
`MalformedPoint` if and only if `b &&& 0xFD ≠ 0x02`.  At leading byte
`0x02` we have `0x02 &&& 0xFD = 0x00 ≠ 0x02` (indeed `b &&& 0xFD = 0x02`
is unsatisfiable, since `0xFD` clears bit 1), so the claim mandates
failure — yet the decoder succeeds. -/
theorem claim_C4_counterexample :
    ((0x02 : Nat) &&& 0xFD ≠ 0x02) ∧
    parse_g1 ((0x02 : Byte) :: List.replicate 32 0) =
      .ok ({ y_lsb := 0, x := List.replicate 32 (0 : Byte) }, []) := by
  constructor
  · decide
  · rfl

/-- C4 amended: for every leading byte `b` (with 32 bytes of `x`
available), `decode_g1` fails with `MalformedPoint` iff
`b &&& 0xFE ≠ 0x02` — the mask keeps every bit except bit 0, as the
spec's own gloss "bit 0 masked out" describes (`0xFD` in the claim is a
slip for `0xFE`); on success it sets `y_lsb = b &&& 1` and reads the
next 32 bytes verbatim as `x`. -/
theorem claim_C4_amended (b : Byte) (x rest : Bytes) (hx : x.length = 32) :
    (parse_g1 (b :: (x ++ rest)) = .error .malformedPoint ↔ b.val &&& 0xFE ≠ 0x02) ∧
    (b.val &&& 0xFE = 0x02 →
      parse_g1 (b :: (x ++ rest)) = .ok ({ y_lsb := b.val &&& 1, x := x }, rest)) := by
  rw [byte_and_fe, byte_and_one, parse_g1_cons]
  by_cases hm : b.val - b.val % 2 = 2
  · constructor
    · rw [if_neg (show ¬(b.val - b.val % 2 ≠ G1_PREFIX_MASK) from not_not_intro hm),
        readBytes_exact hx rest]
      simp only [pbind_ok]
      constructor
      · intro hcon
        exact absurd hcon (by simp)
      · intro hne
        exact absurd hm hne
    · intro _
      rw [if_neg (show ¬(b.val - b.val % 2 ≠ G1_PREFIX_MASK) from not_not_intro hm),
        readBytes_exact hx rest]
      simp only [pbind_ok]
  · constructor
    · rw [if_pos (show b.val - b.val % 2 ≠ G1_PREFIX_MASK from hm)]
      exact ⟨fun _ => hm, fun _ => rfl⟩
    · intro hc
      exact absurd hc hm

theorem claim_C4_witness :
    (List.replicate 32 (0 : Byte)).length = 32 ∧
    ((0x03 : Byte).val &&& 0xFE = 0x02) ∧
    parse_g1 ((0x03 : Byte) :: (List.replicate 32 (0 : Byte) ++ [])) =
      .ok ({ y_lsb := (0x03 : Byte).val &&& 1, x := List.replicate 32 (0 : Byte) }, []) := by
  refine ⟨by simp, by decide,
    (claim_C4_amended 0x03 (List.replicate 32 0) [] (by simp)).2 (by decide)⟩

/-- C5: the proof codec decodes exactly the eight-element concatenation
`g_A · g_A' · g_B · g_B' · g_C · g_C' · g_K · g_H` (one G2 element,
`g_B`, and seven G1 elements — 296 bytes in all), `encode_proof`
concatenates the eight encodings in the same fixed order (third
conjunct, the order contract), and any `MalformedPoint`/`TruncatedInput`
raised by a nested group-element decode propagates unchanged (fourth
conjunct: an error of `decode_proof` is literally the error of a nested
`decode_g1`/`decode_g2` at some suffix of the input). -/
theorem claim_C5 :
    (∀ p rest, WFProof p → parse_proof (serialize_proof p ++ rest) = .ok (p, rest)) ∧
    (∀ s p rest, parse_proof s = .ok (p, rest) →
      s = serialize_proof p ++ rest ∧ WFProof p ∧ (serialize_proof p).length = 296) ∧
    (∀ p, serialize_proof p =
      serialize_g1 p.g_A ++ serialize_g1 p.g_A_prime ++ serialize_g2 p.g_B ++
      serialize_g1 p.g_B_prime ++ serialize_g1 p.g_C ++ serialize_g1 p.g_C_prime ++
      serialize_g1 p.g_K ++ serialize_g1 p.g_H) ∧
    (∀ s e, parse_proof s = .error e →
      ∃ s', s'.IsSuffix s ∧ (parse_g1 s' = .error e ∨ parse_g2 s' = .error e)) := by
  refine ⟨fun p rest hp => parse_proof_enc hp rest, ?_, fun p => rfl,
    fun s e h => parse_proof_err h⟩
  intro s p rest h
  obtain ⟨hs, hwf⟩ := parse_proof_ok h
  exact ⟨hs, hwf, serialize_proof_length hwf⟩

theorem claim_C5_witness :
    WFProof pw ∧ parse_proof (serialize_proof pw ++ []) = .ok (pw, []) :=
  ⟨by decide, claim_C5.1 pw [] (by decide)⟩

/-- C6: the JoinSplit codec reads/writes fields strictly in the order
vpub_old, vpub_new, anchor, 2 nullifiers, 2 commitments, onetimePubKey,
randomSeed, 2 macs, proof, 2 ciphertexts of the fixed 601-byte size
(601 = 1 + 8 + 32 + 32 + 512 + 16), every count-2 field using the fixed
protocol constant 2 and never a wire-read length prefix: a successful
decode consumes exactly the fixed-size 1802-byte image
`serialize_joinsplit d` (no count bytes exist anywhere in it), with all
element counts equal to 2. -/
theorem claim_C6 :
    (ZC_NOTEPLAINTEXT_SIZE = 1 + 8 + 32 + 32 + 512 ∧ NOTEENCRYPTION_AUTH_BYTES = 16 ∧
      ZC_NOTECIPHERTEXT_SIZE = 601 ∧ ZC_NUM_JS_INPUTS = 2 ∧ ZC_NUM_JS_OUTPUTS = 2) ∧
    (∀ d rest, WFJoinSplit d → parse_joinsplit (serialize_joinsplit d ++ rest) = .ok (d, rest)) ∧
    (∀ s d rest, parse_joinsplit s = .ok (d, rest) →
      s = serialize_joinsplit d ++ rest ∧ WFJoinSplit d ∧
      d.nullifiers.length = 2 ∧ d.commitments.length = 2 ∧ d.macs.length = 2 ∧
      d.ciphertexts.length = 2 ∧ (∀ ct ∈ d.ciphertexts, ct.length = 601) ∧
      (serialize_joinsplit d).length = 1802) := by
  refine ⟨⟨rfl, rfl, rfl, rfl, rfl⟩, fun d rest hd => parse_joinsplit_enc hd rest, ?_⟩
  intro s d rest h
  obtain ⟨hs, hwf⟩ := parse_joinsplit_ok h
  exact ⟨hs, hwf, hwf.2.2.2.1.1, hwf.2.2.2.2.1.1, hwf.2.2.2.2.2.2.2.1.1,
    hwf.2.2.2.2.2.2.2.2.2.1, hwf.2.2.2.2.2.2.2.2.2.2,
    serialize_joinsplit_length hwf⟩

set_option maxRecDepth 8192 in
theorem claim_C6_witness :
    WFJoinSplit jsw ∧ parse_joinsplit (serialize_joinsplit jsw ++ []) = .ok (jsw, []) :=
  ⟨by decide, claim_C6.2.1 jsw [] (by decide)⟩

/-- C7: for every transaction entity and every value of
`estimate_size`, serialization with `witness=True` fails immediately
with `UnsupportedFeature` (it returns the error, never any bytes),
before any field is touched. -/
theorem claim_C7 {Inp OutRec Outp : Type} (C : BaseCodec Inp OutRec Outp)
    (estimate_size : Bool) (e : TxEntity Inp Outp) :
    ZcashTransaction.serialize C estimate_size true e = .error .unsupportedFeature := by
  unfold ZcashTransaction.serialize
  rw [if_pos rfl]

/-- C8: if decoding the raw bytes fails with any error, the entity's
`deserialize` surfaces that error with the field cache entirely
untouched — the post-state is the entity unchanged, every field
identical; the cache is assigned only after a full successful decode. -/
theorem claim_C8 {Inp OutRec Outp : Type} {C : BaseCodec Inp OutRec Outp}
    {e : TxEntity Inp Outp} {raw : Bytes} {err : Err}
    (h1 : e.raw = some raw) (h2 : e._inputs = none)
    (h3 : deserializeRaw C raw = .error err) :
    ZcashTransaction.deserialize C e = (e, .error err) :=
  ZT_deserialize_err h1 h2 h3

theorem claim_C8_witness :
    (ZcashTransaction_new [] : TxEntity Unit Unit).raw = some [] ∧
    (ZcashTransaction_new [] : TxEntity Unit Unit)._inputs = none ∧
    deserializeRaw TrivCodec ([] : Bytes) = .error .truncatedInput ∧
    ZcashTransaction.deserialize TrivCodec (ZcashTransaction_new [] : TxEntity Unit Unit) =
      (ZcashTransaction_new [], .error .truncatedInput) :=
  ⟨rfl, rfl, rfl, claim_C8 rfl rfl rfl⟩

/-- C9: `deserialize()` is idempotent: it is a no-op when raw bytes are
absent or when the field cache is already populated, and after a first
call that parsed (returned the dictionary), a second call returns the
same entity untouched without re-parsing (the early-return outcome
`ok none`). -/
theorem claim_C9 {Inp OutRec Outp : Type} (C : BaseCodec Inp OutRec Outp)
    (e : TxEntity Inp Outp) :
    (e.raw = none → ZcashTransaction.deserialize C e = (e, .ok none)) ∧
    (∀ l, e._inputs = some l → ZcashTransaction.deserialize C e = (e, .ok none)) ∧
    (∀ e' d, ZcashTransaction.deserialize C e = (e', .ok (some d)) →
      ZcashTransaction.deserialize C e' = (e', .ok none)) := by
  refine ⟨fun h => ZT_deserialize_none_raw h, fun l h => ZT_deserialize_cached h, ?_⟩
  intro e' d h
  unfold ZcashTransaction.deserialize at h
  cases hr : e.raw with
  | none =>
    simp only [hr, Prod.mk.injEq] at h
    exact absurd h.2 (by simp)
  | some raw =>
    cases hi : e._inputs with
    | some l =>
      simp only [hr, hi, Prod.mk.injEq] at h
      exact absurd h.2 (by simp)
    | none =>
      cases hd : deserializeRaw C raw with
      | error err =>
        simp only [hr, hi, hd, Prod.mk.injEq] at h
        exact absurd h.2 (by simp)
      | ok p =>
        obtain ⟨d0, rest0⟩ := p
        simp only [hr, hi, hd, Prod.mk.injEq] at h
        obtain ⟨he', _⟩ := h
        exact ZT_deserialize_cached
          (show e'._inputs = some d0.inputs from by rw [← he'])

theorem claim_C9_witness :
    (⟨none, none, none, 0, 1, none, none, none⟩ : TxEntity Unit Unit).raw = none ∧
    ZcashTransaction.deserialize TrivCodec
      (⟨none, none, none, 0, 1, none, none, none⟩ : TxEntity Unit Unit) =
      (⟨none, none, none, 0, 1, none, none, none⟩, .ok none) ∧
    ZcashTransaction.deserialize TrivCodec (ZcashTransaction_new bw1) =
      (entityOfDict TrivCodec bw1 dw1, .ok (some dw1)) ∧
    ZcashTransaction.deserialize TrivCodec (entityOfDict TrivCodec bw1 dw1) =
      (entityOfDict TrivCodec bw1 dw1, .ok none) :=
  ⟨rfl, (claim_C9 TrivCodec _).1 rfl, rfl,
    (claim_C9 TrivCodec (ZcashTransaction_new bw1)).2.2 _ dw1 rfl⟩

/-- C10: trailing bytes are ignored, never an error: decoding is
monotone under appending arbitrary extra bytes — the structured result
is identical and the extra bytes simply remain unread (the external
base-layer parsers being equally prefix-stable). -/
theorem claim_C10 {Inp OutRec Outp : Type} {C : BaseCodec Inp OutRec Outp}
    (hmIn : ∀ s a rest extra, C.parse_input s = .ok (a, rest) →
      C.parse_input (s ++ extra) = .ok (a, rest ++ extra))
    (hmOut : ∀ i s o rest extra, C.parse_output s i = .ok (o, rest) →
      C.parse_output (s ++ extra) i = .ok (o, rest ++ extra))
    {b rest : Bytes} {d : TxD Inp OutRec} (extra : Bytes)
    (h : deserializeRaw C b = .ok (d, rest)) :
    deserializeRaw C (b ++ extra) = .ok (d, rest ++ extra) :=
  deserializeRaw_mono hmIn hmOut extra h

theorem claim_C10_witness :
    deserializeRaw TrivCodec bw1 = .ok (dw1, []) ∧
    deserializeRaw TrivCodec (bw1 ++ [255, 238]) = .ok (dw1, ([] : Bytes) ++ [255, 238]) :=
  ⟨rfl, claim_C10 TrivCodec_inMono TrivCodec_outMono [255, 238]
    (show deserializeRaw TrivCodec bw1 = .ok (dw1, []) from rfl)⟩

/-- C1: byte-exact round-trip — for a well-formed raw transaction byte
sequence `b` (one the strict decoder accepts while consuming the whole
buffer), of version 1 or version ≥ 2 with zero or more joinsplits,
constructing the entity from `b`, deserializing it, and serializing it
again reproduces `b` exactly, provided the external base-layer
input/output codecs round-trip. -/
theorem claim_C1 {Inp OutRec Outp : Type} {C : BaseCodec Inp OutRec Outp}
    (HinRT : ∀ s a rest, C.parse_input s = .ok (a, rest) →
      s = C.serialize_input false a ++ rest)
    (HoutRT : ∀ i s o rest, C.parse_output s i = .ok (o, rest) →
      s = C.serialize_output (C.outProj o) ++ rest)
    {b : Bytes} {d : TxD Inp OutRec}
    (hwf : deserializeRawStrict C b = .ok (d, []))
    (_hver : d.version = 1 ∨ 2 ≤ d.version) :
    ZcashTransaction.serialize C false false
      ((ZcashTransaction.deserialize C (ZcashTransaction_new b)).1) = .ok b := by
  have hb := tx_strict_decomp HinRT HoutRT hwf
  rw [List.append_nil] at hb
  rw [entity_roundtrip (deserializeRaw_of_strict hwf), ← hb]

theorem claim_C1_witness :
    deserializeRawStrict TrivCodec bw1 = .ok (dw1, []) ∧
    (dw1.version = 1 ∨ 2 ≤ dw1.version) ∧
    ZcashTransaction.serialize TrivCodec false false
      ((ZcashTransaction.deserialize TrivCodec (ZcashTransaction_new bw1)).1) = .ok bw1 :=
  ⟨rfl, Or.inl rfl, claim_C1 TrivCodec_inRT TrivCodec_outRT
    (show deserializeRawStrict TrivCodec bw1 = .ok (dw1, []) from rfl) (Or.inl rfl)⟩

/-- C2: version gating and empty-vs-absent.  A decoded transaction with
version < 2 (in particular version 1) has `joinsplits`,
`joinSplitPubKey` and `joinSplitSig` all absent — whatever trailing
bytes follow the locktime; a decoded transaction with version ≥ 2
always has `joinsplits` present (`some js`), and when the descriptor
count was 0, `joinsplits = some []` while `joinSplitPubKey` and
`joinSplitSig` stay absent — so the two states `none` and `some []` are
distinguishable. -/
theorem claim_C2 {Inp OutRec Outp : Type} {C : BaseCodec Inp OutRec Outp}
    {b rest : Bytes} {d : TxD Inp OutRec}
    (h : deserializeRaw C b = .ok (d, rest)) :
    (d.version < 2 → d.joinsplits = none ∧ d.joinSplitPubKey = none ∧
      d.joinSplitSig = none) ∧
    (2 ≤ d.version → ∃ js, d.joinsplits = some js ∧
      (js = [] → d.joinsplits = some ([] : List JoinSplit) ∧
        d.joinSplitPubKey = none ∧ d.joinSplitSig = none)) := by
  obtain ⟨v, ins, outs, lt, hc⟩ := deserializeRawWith_cases h
  rcases hc with ⟨hv, hd⟩ | ⟨hv, js, pk, sig, hne, hpk, hsig, hd⟩ | ⟨hv, hd⟩ <;> subst hd
  · exact ⟨fun _ => ⟨rfl, rfl, rfl⟩, fun h2 => absurd (show 2 ≤ v from h2) (by omega)⟩
  · exact ⟨fun hlt2 => absurd (show v < 2 from hlt2) (by omega),
      fun _ => ⟨js, rfl, fun hjs0 => absurd hjs0 hne⟩⟩
  · exact ⟨fun hlt2 => absurd (show v < 2 from hlt2) (by omega),
      fun _ => ⟨[], rfl, fun _ => ⟨rfl, rfl, rfl⟩⟩⟩

theorem claim_C2_witness :
    deserializeRaw TrivCodec (bw1 ++ [255, 238]) = .ok (dw1, ([255, 238] : Bytes)) ∧
    deserializeRaw TrivCodec bw2 = .ok (dw2, []) ∧
    (dw1.joinsplits = none ∧ dw1.joinSplitPubKey = none ∧ dw1.joinSplitSig = none) ∧
    (∃ js, dw2.joinsplits = some js ∧
      (js = [] → dw2.joinsplits = some ([] : List JoinSplit) ∧
        dw2.joinSplitPubKey = none ∧ dw2.joinSplitSig = none)) :=
  ⟨rfl, rfl,
    (claim_C2 (show deserializeRaw TrivCodec (bw1 ++ [255, 238]) =
      .ok (dw1, ([255, 238] : Bytes)) from rfl)).1 (by decide),
    (claim_C2 (show deserializeRaw TrivCodec bw2 = .ok (dw2, []) from rfl)).2 (by decide)⟩
